import Mathlib

/-!
# Verification of the norem lowering/printing layer

Shallow embedding of the `norem` compiler sources (`src/frontend/ast.rs`,
`src/utils/printer.rs`) and of the output-IR types they consume.  The
`Display` implementations of the printer are modelled as functions producing
a list of tokens (plain strings plus the `INDT`/`DEDT`/`NWLN` control
tokens), and the thread-local indentation counter is modelled as explicit
state threaded by a `layout` automaton.  A `DEDT` at indentation level zero
models the `usize` underflow panic, and the `assert!` calls in the printer
are modelled by `Option`-valued token builders.
-/

namespace Norem

/-- Modelled: identifiers (`Ident` from the absent `intern.rs`) are rendered
by their `Display`; we model them by the string they render to. -/
abbrev Ident := String

/-- Modelled: interned strings (`InternStr` from the absent `intern.rs`),
rendered as their underlying string. -/
abbrev InternStr := String

/-- Modelled: source spans (`Span` from the absent `position.rs`).  Spans are
carried by the AST but never inspected by any code relevant to the claims. -/
structure Span where
  left : Nat
  right : Nat
deriving DecidableEq

/-- Modelled: an `f64` value, represented opaquely by the decimal string its
Rust `Display` implementation produces (no claim depends on real
arithmetic). -/
structure F64 where
  repr : String
deriving DecidableEq

/-! ## Token model of the printer

`printer.rs` builds output by interleaving plain text with the zero-sized
markers `INDT`, `DEDT` and `NWLN`, whose `Display` impls mutate or read the
thread-local `INDT_LEVEL : Cell<usize>`.  We model an emitted stream as a
list of tokens and run it through an explicit state automaton. -/

inductive Tok where
  | str : String → Tok
  | indt : Tok
  | dedt : Tok
  | nwln : Tok
deriving DecidableEq

/-- `n` space characters, as produced by `write!(f, "{:width$}", "")`. -/
def spaces (n : Nat) : String := String.mk (List.replicate n ' ')

/-- One step of the rendering automaton at indentation level `l`:
 * a plain string is emitted unchanged (`write!` of text);
 * `INDT` emits nothing and increments the level (`c.set(x + 1)`);
 * `DEDT` emits nothing and decrements the level (`c.set(x - 1)`); at level
   zero the `usize` subtraction underflows, modelled as `none`;
 * `NWLN` emits a newline followed by `2 * level` spaces
   (`write!(f, "\n{:width$}", "", width = c.get() * 2)`). -/
def layoutStep (l : Nat) : Tok → Option (String × Nat)
  | .str s => some (s, l)
  | .indt => some ("", l + 1)
  | .dedt => if l = 0 then none else some ("", l - 1)
  | .nwln => some ("\n" ++ spaces (2 * l), l)

/-- Run a token stream through the automaton, returning the concatenated
output text and the final indentation level. -/
def layout : List Tok → Nat → Option (String × Nat)
  | [], l => some ("", l)
  | t :: ts, l =>
    match layoutStep l t with
    | none => none
    | some (s, l1) =>
      match layout ts l1 with
      | none => none
      | some (s2, l2) => some (s ++ s2, l2)

/-- The level automaton alone: the indentation level after a token stream,
ignoring the text. -/
def levels : List Tok → Nat → Option Nat
  | [], l => some l
  | t :: ts, l =>
    match layoutStep l t with
    | none => none
    | some (_, l1) => levels ts l1

theorem levels_append (a b : List Tok) (l : Nat) :
    levels (a ++ b) l = (levels a l).bind (levels b) := by
  induction a generalizing l with
  | nil => simp [levels]
  | cons t ts ih =>
    simp only [List.cons_append, levels]
    cases layoutStep l t with
    | none => simp
    | some p => simp [ih]

theorem layout_levels (ts : List Tok) (l : Nat) :
    (layout ts l).map Prod.snd = levels ts l := by
  induction ts generalizing l with
  | nil => simp [layout, levels]
  | cons t ts ih =>
    simp only [layout, levels]
    cases layoutStep l t with
    | none => simp
    | some p =>
      simp only
      cases h : layout ts p.2 with
      | none => have := ih p.2; rw [h] at this; simp at this ⊢; exact this
      | some q => have := ih p.2; rw [h] at this; simp at this ⊢; rw [← this]

theorem levels_some_layout {ts : List Tok} {l l' : Nat}
    (h : levels ts l = some l') : ∃ s, layout ts l = some (s, l') := by
  have hm := layout_levels ts l
  rw [h] at hm
  cases hl : layout ts l with
  | none => rw [hl] at hm; simp at hm
  | some p =>
    rw [hl] at hm
    simp at hm
    exact ⟨p.1, by rw [← hm]⟩

theorem layout_append (a b : List Tok) (l : Nat) :
    layout (a ++ b) l =
      (layout a l).bind (fun p => (layout b p.2).map fun q => (p.1 ++ q.1, q.2)) := by
  induction a generalizing l with
  | nil =>
    simp only [List.nil_append, layout, Option.bind]
    cases layout b l with
    | none => rfl
    | some q => simp
  | cons t ts ih =>
    simp only [List.cons_append, layout]
    cases layoutStep l t with
    | none => simp
    | some p =>
      simp only [List.append_eq]
      rw [ih p.2]
      cases layout ts p.2 with
      | none => simp
      | some q =>
        simp only [Option.bind]
        cases layout b q.2 with
        | none => simp
        | some r => simp [String.append_assoc]

/-- Join a list of strings with a separator, as `itertools`'
`format(&", ")` does. -/
def sepBy (sep : String) : List String → String
  | [] => ""
  | [x] => x
  | x :: y :: xs => x ++ sep ++ sepBy sep (y :: xs)

/-! ## `src/frontend/ast.rs` -/

/-- `LitVal` from `ast.rs`: literal values of the five kinds. -/
inductive LitVal where
  | Int (x : Int)
  | Real (x : F64)
  | Bool (x : Bool)
  | Char (x : Char)
  | Unit
deriving DecidableEq

/-- `LitType` from `ast.rs`. -/
inductive LitType where
  | Int
  | Real
  | Bool
  | Char
  | Unit
deriving DecidableEq

/-- `LitVal::get_lit_type` from `ast.rs`. -/
def LitVal.get_lit_type : LitVal → LitType
  | .Int _ => .Int
  | .Real _ => .Real
  | .Bool _ => .Bool
  | .Char _ => .Char
  | .Unit => .Unit

/-- `Builtin` from `ast.rs` (the thirteen-variant version defined in
`src/frontend/ast.rs`). -/
inductive Builtin where
  | IAdd
  | ISub
  | IMul
  | IDiv
  | IRem
  | INeg
  | RAdd
  | RSub
  | RMul
  | RDiv
  | BAnd
  | BOr
  | BNot
deriving DecidableEq

/-- `Builtin::get_arity` from `ast.rs`. -/
def Builtin.get_arity : Builtin → Nat
  | .IAdd => 2
  | .ISub => 2
  | .IMul => 2
  | .IDiv => 2
  | .INeg => 1
  | .IRem => 2
  | .RAdd => 2
  | .RSub => 2
  | .RMul => 2
  | .RDiv => 2
  | .BAnd => 2
  | .BOr => 2
  | .BNot => 1

/-- `Pattern` from `ast.rs`. -/
inductive Pattern where
  | Var (var : Ident) (span : Span)
  | Lit (lit : LitVal) (span : Span)
  | Cons (cons : Ident) (pars : List Pattern) (span : Span)
  | Wild (span : Span)

/-- `Pattern::is_wild_or_var` from `ast.rs`. -/
def Pattern.is_wild_or_var : Pattern → Bool
  | .Var _ _ => true
  | .Wild _ => true
  | _ => false

/-- `Type` from `ast.rs` (`Type` is a Lean keyword, so the Lean name is
`Ty`). -/
inductive Ty where
  | Lit (lit : LitType) (span : Span)
  | Var (var : Ident) (span : Span)
  | Fun (pars : List Ty) (res : Ty) (span : Span)
  | App (cons : Ident) (args : List Ty) (span : Span)

/-- `Varient` from `ast.rs`: one constructor of an algebraic data type,
with its field types. -/
structure Varient where
  cons : Ident
  pars : List Ty
  span : Span

/-! ## Claim C5: `Pattern::is_wild_or_var` -/

/-- C5: `Pattern::is_wild_or_var` returns `true` exactly for variable and
wildcard patterns — the patterns that match unconditionally under the
pattern-match compiler's first rule — and `false` for every literal and
constructor pattern. -/
theorem C5_is_wild_or_var_characterization :
    (∀ p : Pattern, p.is_wild_or_var = true ↔
      ((∃ v s, p = Pattern.Var v s) ∨ (∃ s, p = Pattern.Wild s))) ∧
    (∀ l s, (Pattern.Lit l s).is_wild_or_var = false) ∧
    (∀ c ps s, (Pattern.Cons c ps s).is_wild_or_var = false) := by
  refine ⟨fun p => ?_, fun l s => rfl, fun c ps s => rfl⟩
  cases p with
  | Var v s => simp [Pattern.is_wild_or_var]
  | Lit l s => simp [Pattern.is_wild_or_var]
  | Cons c ps s => simp [Pattern.is_wild_or_var]
  | Wild s => simp [Pattern.is_wild_or_var]

/-! ## Claim C8: `Builtin::get_arity` -/

/-- C8: every builtin primitive has arity 1 or 2, and the arity is 1 exactly
for `INeg` and `BNot`; hence each primitive application lowers to a unary-op
or binary-op step. -/
theorem C8_get_arity_one_or_two :
    (∀ b : Builtin, b.get_arity = 1 ∨ b.get_arity = 2) ∧
    (∀ b : Builtin, b.get_arity = 1 ↔ (b = Builtin.INeg ∨ b = Builtin.BNot)) := by
  constructor
  · intro b; cases b <;> simp [Builtin.get_arity]
  · intro b; cases b <;> simp [Builtin.get_arity]


/-! ## Claim C3: the Tag/Layout Assigner -/

/-- Modelled from the spec: the Tag/Layout Assigner (its implementation lives
in the absent back end; only the `Varient` input type is in `src/`) walks the
ordered variant list of one algebraic-type declaration and assigns each
constructor, in declaration order, the pair (integer tag, field count),
tags counting up from `i`. -/
def assignTagsFrom (i : Nat) : List Varient → List (Ident × Nat × Nat)
  | [] => []
  | v :: vs => (v.cons, i, v.pars.length) :: assignTagsFrom (i + 1) vs

/-- Modelled from the spec: the tag table of one type declaration, tags
starting at `0`. -/
def assignTags (vars : List Varient) : List (Ident × Nat × Nat) :=
  assignTagsFrom 0 vars

theorem assignTagsFrom_tags (vs : List Varient) (i : Nat) :
    (assignTagsFrom i vs).map (fun e => e.2.1) = List.range' i vs.length := by
  induction vs generalizing i with
  | nil => simp [assignTagsFrom]
  | cons v vs ih => simp [assignTagsFrom, ih, List.range'_succ]

theorem assignTagsFrom_get (vs : List Varient) (i j : Nat) (h : j < vs.length) :
    (assignTagsFrom i vs)[j]? =
      some ((vs[j]).cons, i + j, (vs[j]).pars.length) := by
  induction vs generalizing i j with
  | nil => simp at h
  | cons v vs ih =>
    cases j with
    | zero => simp [assignTagsFrom]
    | succ j =>
      have hj : j < vs.length := by simpa using h
      simp only [assignTagsFrom, List.getElem?_cons_succ, List.getElem_cons_succ]
      rw [ih (i + 1) j hj]
      simp [Nat.add_assoc, Nat.add_comm 1 j]

/-- C3: for a type declaration with `K` variants the assigner produces the
tag list `0, 1, …, K-1` — dense, gap-free and repeat-free — and the `j`-th
constructor's table entry carries its name, the tag `j`, and a field count
equal to its declared arity.  (The table is a pure value, so it cannot be
mutated after assignment.) -/
theorem C3_tag_table_dense (vars : List Varient) :
    ((assignTags vars).map (fun e => e.2.1) = List.range vars.length) ∧
    ((assignTags vars).map (fun e => e.2.1)).Nodup ∧
    (∀ j, ∀ h : j < vars.length,
      (assignTags vars)[j]? =
        some ((vars[j]).cons, j, (vars[j]).pars.length)) := by
  have htags : (assignTags vars).map (fun e => e.2.1) = List.range vars.length := by
    rw [assignTags, assignTagsFrom_tags, List.range_eq_range']
  refine ⟨htags, ?_, ?_⟩
  · rw [htags]; exact List.nodup_range _
  · intro j h
    have := assignTagsFrom_get vars 0 j h
    simpa [assignTags] using this

/-- Witness for C3: the tag table of a two-variant declaration
(`Nil | Cons[Int, List]`) evaluated at index 1. -/
theorem C3_tag_table_dense_witness :
    (1 : Nat) < ([⟨"Nil", [], ⟨0, 0⟩⟩,
      ⟨"Cons", [Ty.Lit LitType.Int ⟨0, 0⟩, Ty.App "List" [Ty.Lit LitType.Int ⟨0, 0⟩] ⟨0, 0⟩], ⟨0, 0⟩⟩] : List Varient).length ∧
    (assignTags [⟨"Nil", [], ⟨0, 0⟩⟩,
      ⟨"Cons", [Ty.Lit LitType.Int ⟨0, 0⟩, Ty.App "List" [Ty.Lit LitType.Int ⟨0, 0⟩] ⟨0, 0⟩], ⟨0, 0⟩⟩])[1]? =
      some ("Cons", 1, 2) := by
  refine ⟨by decide, ?_⟩
  have h := (C3_tag_table_dense [⟨"Nil", [], ⟨0, 0⟩⟩,
    ⟨"Cons", [Ty.Lit LitType.Int ⟨0, 0⟩, Ty.App "List" [Ty.Lit LitType.Int ⟨0, 0⟩] ⟨0, 0⟩], ⟨0, 0⟩⟩]).2.2 1 (by decide)
  simpa using h

/-! ## Claim C6: `Pattern::get_freevars` -/

mutual

/-- Size of a pattern (number of nodes), used as the termination measure of
the `get_freevars` work-list loop. -/
def Pattern.psize : Pattern → Nat
  | .Var _ _ => 1
  | .Lit _ _ => 1
  | .Wild _ => 1
  | .Cons _ pars _ => 1 + Pattern.psizeList pars

/-- Total size of a list of patterns. -/
def Pattern.psizeList : List Pattern → Nat
  | [] => 0
  | p :: ps => Pattern.psize p + Pattern.psizeList ps

end

theorem Pattern.psize_pos (p : Pattern) : 0 < p.psize := by
  cases p <;> simp [Pattern.psize]

theorem Pattern.psizeList_append (a b : List Pattern) :
    Pattern.psizeList (a ++ b) = Pattern.psizeList a + Pattern.psizeList b := by
  induction a with
  | nil => simp [Pattern.psizeList]
  | cons p ps ih => simp [Pattern.psizeList, ih, Nat.add_assoc]

theorem Pattern.psizeList_reverse (a : List Pattern) :
    Pattern.psizeList a.reverse = Pattern.psizeList a := by
  induction a with
  | nil => rfl
  | cons p ps ih =>
    simp [List.reverse_cons, Pattern.psizeList_append, Pattern.psizeList, ih,
      Nat.add_comm]

/-- The work-list loop of `Pattern::get_freevars` from `ast.rs`.  The Rust
code pops from the END of a `Vec` and `extend`s with the subpatterns, so the
`Vec` stack `[a, b, c]` (next pop `c`) is modelled by the Lean list
`[c, b, a]` with the top at the head; `stack.extend(pars)` therefore pushes
`pars.reverse` onto the head.  A popped variable is appended to the output
unless already present (`if !vec.contains(var) { vec.push(*var) }`). -/
def get_freevars_loop (stack : List Pattern) (vec : List Ident) : List Ident :=
  match stack with
  | [] => vec
  | w :: rest =>
    match w with
    | .Var v _ =>
      get_freevars_loop rest (if vec.contains v then vec else vec ++ [v])
    | .Lit _ _ => get_freevars_loop rest vec
    | .Cons _ pars _ => get_freevars_loop (pars.reverse ++ rest) vec
    | .Wild _ => get_freevars_loop rest vec
termination_by Pattern.psizeList stack
decreasing_by
  all_goals simp_all [Pattern.psizeList, Pattern.psizeList_append,
    Pattern.psizeList_reverse, Pattern.psize]

/-- `Pattern::get_freevars` from `ast.rs`. -/
def Pattern.get_freevars (p : Pattern) : List Ident :=
  get_freevars_loop [p] []

mutual

/-- The variables a pattern introduces (with multiplicity), read off the
pattern structure; the reference semantics the claim compares
`get_freevars` against. -/
def patVars : Pattern → List Ident
  | .Var v _ => [v]
  | .Lit _ _ => []
  | .Wild _ => []
  | .Cons _ pars _ => patVarsList pars

/-- The variables a list of patterns introduces, in order. -/
def patVarsList : List Pattern → List Ident
  | [] => []
  | p :: ps => patVars p ++ patVarsList ps

end

theorem patVarsList_mem (x : Ident) (ps : List Pattern) :
    x ∈ patVarsList ps ↔ ∃ p ∈ ps, x ∈ patVars p := by
  induction ps with
  | nil => simp [patVarsList]
  | cons p ps ih => simp [patVarsList, ih]

theorem get_freevars_loop_spec (stack : List Pattern) (vec : List Ident) :
    (∀ x, x ∈ get_freevars_loop stack vec ↔
      x ∈ vec ∨ ∃ p ∈ stack, x ∈ patVars p) ∧
    (vec.Nodup → (get_freevars_loop stack vec).Nodup) := by
  induction stack, vec using get_freevars_loop.induct with
  | case1 vec => simp [get_freevars_loop]
  | case2 vec rest v sp ih =>
    rw [show get_freevars_loop (Pattern.Var v sp :: rest) vec
        = get_freevars_loop rest (if vec.contains v then vec else vec ++ [v])
      from by rw [get_freevars_loop]]
    by_cases hv : vec.contains v = true
    · have hvm : v ∈ vec := by simpa using hv
      rw [if_pos hv]
      rw [dif_pos hv] at ih
      refine ⟨fun x => ?_, ih.2⟩
      rw [ih.1 x]
      simp [patVars]
      constructor
      · rintro (h | h)
        · exact Or.inl h
        · exact Or.inr (Or.inr h)
      · rintro (h | h | h)
        · exact Or.inl h
        · exact Or.inl (h ▸ hvm)
        · exact Or.inr h
    · have hnv : v ∉ vec := by simpa using hv
      rw [if_neg hv]
      rw [dif_neg hv] at ih
      refine ⟨fun x => ?_, fun hnd => ih.2 ?_⟩
      · rw [ih.1 x]
        simp [patVars]
        constructor
        · rintro ((h | h) | h)
          · exact Or.inl h
          · exact Or.inr (Or.inl h)
          · exact Or.inr (Or.inr h)
        · rintro (h | h | h)
          · exact Or.inl (Or.inl h)
          · exact Or.inl (Or.inr h)
          · exact Or.inr h
      · simp [List.nodup_append, hnd, hnv]
  | case3 vec rest l sp ih =>
    rw [show get_freevars_loop (Pattern.Lit l sp :: rest) vec
        = get_freevars_loop rest vec from by rw [get_freevars_loop]]
    refine ⟨fun x => ?_, ih.2⟩
    rw [ih.1 x]
    simp [patVars]
  | case4 vec rest c pars sp ih =>
    rw [show get_freevars_loop (Pattern.Cons c pars sp :: rest) vec
        = get_freevars_loop (pars.reverse ++ rest) vec from by rw [get_freevars_loop]]
    refine ⟨fun x => ?_, ih.2⟩
    rw [ih.1 x]
    simp [patVars, patVarsList_mem]
    constructor
    · rintro (h | ⟨p, hp | hp, hx⟩)
      · exact Or.inl h
      · exact Or.inr (Or.inl ⟨p, hp, hx⟩)
      · exact Or.inr (Or.inr ⟨p, hp, hx⟩)
    · rintro (h | ⟨p, hp, hx⟩ | ⟨p, hp, hx⟩)
      · exact Or.inl h
      · exact Or.inr ⟨p, Or.inl hp, hx⟩
      · exact Or.inr ⟨p, Or.inr hp, hx⟩
  | case5 vec rest sp ih =>
    rw [show get_freevars_loop (Pattern.Wild sp :: rest) vec
        = get_freevars_loop rest vec from by rw [get_freevars_loop]]
    refine ⟨fun x => ?_, ih.2⟩
    rw [ih.1 x]
    simp [patVars]

/-- C6: `Pattern::get_freevars` returns a duplicate-free list containing
exactly the variables the pattern introduces (even when one name occurs in
several nested subpatterns), and literal and wildcard patterns contribute no
variables. -/
theorem C6_get_freevars_exact :
    (∀ p : Pattern, p.get_freevars.Nodup) ∧
    (∀ (p : Pattern) (x : Ident), x ∈ p.get_freevars ↔ x ∈ patVars p) ∧
    (∀ l s, (Pattern.Lit l s).get_freevars = []) ∧
    (∀ s, (Pattern.Wild s).get_freevars = []) := by
  refine ⟨fun p => ?_, fun p x => ?_, fun l s => ?_, fun s => ?_⟩
  · exact (get_freevars_loop_spec [p] []).2 List.nodup_nil
  · rw [Pattern.get_freevars, (get_freevars_loop_spec [p] []).1 x]
    simp
  · rw [Pattern.get_freevars]
    simp [get_freevars_loop]
  · rw [Pattern.get_freevars]
    simp [get_freevars_loop]

/-! ## The output IR (`crate::backend::anf`)

The IR types are consumed by `printer.rs` but their declaration file
(`backend/anf.rs`) is absent from `src/`; the types below are modelled from
the spec's data model (section 3: atoms, binding-chain nodes, function
declarations) with exactly the constructors and fields the printer's match
arms destructure. -/

/-- `UnOpPrim` from the absent `backend/anf.rs`, variants per the printer's
`Display for UnOpPrim`. -/
inductive UnOpPrim where
  | Move
  | INeg
deriving DecidableEq

/-- `BinOpPrim` from the absent `backend/anf.rs`, variants per the printer's
`Display for BinOpPrim`. -/
inductive BinOpPrim where
  | IAdd
  | ISub
  | IMul
  | ICmpEq
  | ICmpNe
  | ICmpGr
  | ICmpGe
  | ICmpLs
  | ICmpLe
deriving DecidableEq

/-- Modelled from the spec: an *Atom* is an immutable trivial operand —
either a bound name or an immediate literal of one of the five kinds —
with exactly the constructors the printer's `Display for Atom` matches. -/
inductive Atom where
  | Var (x : Ident)
  | Int (x : Int)
  | Real (x : F64)
  | Bool (x : Bool)
  | Char (x : Char)
  | Unit
deriving DecidableEq

/-- `Display for Atom` from `printer.rs` (lines 357-368): each atom renders
as the bare operand text. -/
def Atom.render : Atom → String
  | .Var x => x
  | .Int x => toString x
  | .Real x => x.repr
  | .Bool x => if x then "true" else "false"
  | .Char x => String.singleton x
  | .Unit => "()"

/-- `Display for UnOpPrim` from `printer.rs`. -/
def UnOpPrim.render : UnOpPrim → String
  | .Move => "move"
  | .INeg => "ineg"

/-- `Display for BinOpPrim` from `printer.rs`. -/
def BinOpPrim.render : BinOpPrim → String
  | .IAdd => "iadd"
  | .ISub => "isub"
  | .IMul => "imul"
  | .ICmpEq => "icmpeq"
  | .ICmpNe => "icmpne"
  | .ICmpGr => "icmpgr"
  | .ICmpGe => "icmpge"
  | .ICmpLs => "icmpls"
  | .ICmpLe => "icmple"

mutual

/-- Modelled from the spec: the binding-chain node type `MExpr` of the
absent `backend/anf.rs`, with exactly the constructors and fields the
printer's `Display for MExpr` destructures (every operand field is an
`Atom`, continuations and branches are nested chains, `LetIn` carries a
group of function declarations). -/
inductive MExpr where
  | LetIn (decls : List MDecl) (cont : MExpr)
  | UnOp (bind : Ident) (prim : UnOpPrim) (arg1 : Atom) (cont : MExpr)
  | BinOp (bind : Ident) (prim : BinOpPrim) (arg1 : Atom) (arg2 : Atom) (cont : MExpr)
  | Call (bind : Ident) (func : Ident) (args : List Atom) (cont : MExpr)
  | ExtCall (bind : Ident) (func : InternStr) (args : List Atom) (cont : MExpr)
  | Retn (arg1 : Atom)
  | Alloc (bind : Ident) (size : Nat) (cont : MExpr)
  | Load (bind : Ident) (arg1 : Atom) (index : Nat) (cont : MExpr)
  | Store (arg1 : Atom) (index : Nat) (arg2 : Atom) (cont : MExpr)
  | Offset (bind : Ident) (arg1 : Atom) (index : Nat) (cont : MExpr)
  | Ifte (bind : Ident) (arg1 : Atom) (brch1 : MExpr) (brch2 : MExpr) (cont : MExpr)
  | Switch (bind : Ident) (arg1 : Atom) (brchs : List (Nat × MExpr))
      (dflt : Option MExpr) (cont : MExpr)

/-- Modelled from the spec: a lowered function declaration `MDecl` of the
absent `backend/anf.rs` — name, parameter list and one body chain, the
fields the printer's `Display for MDecl` destructures. -/
inductive MDecl where
  | mk (func : Ident) (pars : List Ident) (body : MExpr)

end

mutual

/-- `Display for MExpr` from `printer.rs` (lines 395-499), as the token
stream it writes (text plus `INDT`/`DEDT`/`NWLN`). -/
def tokensM : MExpr → List Tok
  | .LetIn decls cont =>
    [Tok.str "letrec", Tok.indt] ++ tokensDecls decls ++
    [Tok.dedt, Tok.nwln, Tok.str "in", Tok.indt, Tok.nwln] ++ tokensM cont ++
    [Tok.dedt, Tok.nwln, Tok.str "end"]
  | .UnOp bind prim arg1 cont =>
    [Tok.str ("let " ++ bind ++ " = " ++ prim.render ++ "(" ++ arg1.render ++ ");"),
     Tok.nwln] ++ tokensM cont
  | .BinOp bind prim arg1 arg2 cont =>
    [Tok.str ("let " ++ bind ++ " = " ++ prim.render ++ "(" ++ arg1.render ++ ","
        ++ arg2.render ++ ");"),
     Tok.nwln] ++ tokensM cont
  | .Call bind func args cont =>
    [Tok.str ("let " ++ bind ++ " = " ++ func ++ "("
        ++ sepBy ", " (args.map Atom.render) ++ ");"),
     Tok.nwln] ++ tokensM cont
  | .ExtCall bind func args cont =>
    [Tok.str ("let " ++ bind ++ " = " ++ func ++ "("
        ++ sepBy ", " (args.map Atom.render) ++ ");"),
     Tok.nwln] ++ tokensM cont
  | .Retn arg1 =>
    [Tok.str ("return " ++ arg1.render)]
  | .Alloc bind size cont =>
    [Tok.str ("let " ++ bind ++ " = alloc[" ++ toString size ++ "];"),
     Tok.nwln] ++ tokensM cont
  | .Load bind arg1 index cont =>
    [Tok.str ("let " ++ bind ++ " = load " ++ arg1.render ++ "["
        ++ toString index ++ "];"),
     Tok.nwln] ++ tokensM cont
  | .Store arg1 index arg2 cont =>
    [Tok.str ("store " ++ arg1.render ++ "[" ++ toString index ++ "] := "
        ++ arg2.render ++ ";"),
     Tok.nwln] ++ tokensM cont
  | .Offset bind arg1 index cont =>
    [Tok.str ("let " ++ bind ++ " = offset " ++ arg1.render ++ "["
        ++ toString index ++ "];"),
     Tok.nwln] ++ tokensM cont
  | .Ifte bind arg1 brch1 brch2 cont =>
    [Tok.str ("let " ++ bind ++ " = if(" ++ arg1.render ++ ") then"),
     Tok.indt, Tok.nwln] ++ tokensM brch1 ++
    [Tok.dedt, Tok.nwln, Tok.str "else", Tok.indt, Tok.nwln] ++ tokensM brch2 ++
    [Tok.dedt, Tok.nwln, Tok.str ";", Tok.nwln] ++ tokensM cont
  | .Switch bind arg1 brchs dflt cont =>
    [Tok.str ("let " ++ bind ++ " = switch(" ++ arg1.render ++ ") \x7b"),
     Tok.indt] ++ tokensBrchs brchs ++ tokensDflt dflt ++
    [Tok.dedt, Tok.nwln, Tok.str "\x7d", Tok.nwln] ++ tokensM cont

/-- The `for decl in decls` loop of the `LetIn` arm: each declaration is
preceded by one `NWLN`. -/
def tokensDecls : List MDecl → List Tok
  | [] => []
  | d :: ds => [Tok.nwln] ++ tokensMDecl d ++ tokensDecls ds

/-- The `for (i, brch) in brchs` loop of the `Switch` arm. -/
def tokensBrchs : List (Nat × MExpr) → List Tok
  | [] => []
  | (i, b) :: bs =>
    [Tok.nwln, Tok.str ("case " ++ toString i ++ ":"), Tok.indt, Tok.nwln] ++
    tokensM b ++ [Tok.dedt] ++ tokensBrchs bs

/-- The `if let Some(dflt)` arm of the `Switch` case. -/
def tokensDflt : Option MExpr → List Tok
  | none => []
  | some d =>
    [Tok.nwln, Tok.str "default:", Tok.indt, Tok.nwln] ++ tokensM d ++ [Tok.dedt]

/-- `Display for MDecl` from `printer.rs` (lines 501-507). -/
def tokensMDecl : MDecl → List Tok
  | .mk func pars body =>
    [Tok.str ("fun " ++ func ++ "(" ++ sepBy ", " pars ++ ") = "),
     Tok.indt, Tok.nwln] ++ tokensM body ++ [Tok.dedt]

end

/-! ### Indentation balance of the IR printer -/

@[simp]
theorem levels_nil (l : Nat) : levels [] l = some l := rfl

@[simp]
theorem levels_str (s : String) (ts : List Tok) (l : Nat) :
    levels (Tok.str s :: ts) l = levels ts l := rfl

@[simp]
theorem levels_indt (ts : List Tok) (l : Nat) :
    levels (Tok.indt :: ts) l = levels ts (l + 1) := rfl

@[simp]
theorem levels_dedt_succ (ts : List Tok) (l : Nat) :
    levels (Tok.dedt :: ts) (l + 1) = levels ts l := by
  simp [levels, layoutStep]

@[simp]
theorem levels_nwln (ts : List Tok) (l : Nat) :
    levels (Tok.nwln :: ts) l = levels ts l := rfl

mutual

theorem levels_tokensM (e : MExpr) (l : Nat) : levels (tokensM e) l = some l := by
  cases e with
  | LetIn decls cont =>
    simp [tokensM, levels_append, levels_tokensDecls decls,
      levels_tokensM cont]
  | UnOp bind prim arg1 cont => simp [tokensM, levels_append, levels_tokensM cont]
  | BinOp bind prim arg1 arg2 cont =>
    simp [tokensM, levels_append, levels_tokensM cont]
  | Call bind func args cont => simp [tokensM, levels_append, levels_tokensM cont]
  | ExtCall bind func args cont =>
    simp [tokensM, levels_append, levels_tokensM cont]
  | Retn arg1 => simp [tokensM]
  | Alloc bind size cont => simp [tokensM, levels_append, levels_tokensM cont]
  | Load bind arg1 index cont => simp [tokensM, levels_append, levels_tokensM cont]
  | Store arg1 index arg2 cont =>
    simp [tokensM, levels_append, levels_tokensM cont]
  | Offset bind arg1 index cont =>
    simp [tokensM, levels_append, levels_tokensM cont]
  | Ifte bind arg1 brch1 brch2 cont =>
    simp [tokensM, levels_append, levels_tokensM brch1, levels_tokensM brch2,
      levels_tokensM cont]
  | Switch bind arg1 brchs dflt cont =>
    simp [tokensM, levels_append, levels_tokensBrchs brchs,
      levels_tokensDflt dflt, levels_tokensM cont]

theorem levels_tokensDecls (ds : List MDecl) (l : Nat) :
    levels (tokensDecls ds) l = some l := by
  cases ds with
  | nil => simp [tokensDecls]
  | cons d ds =>
    simp [tokensDecls, levels_append, levels_tokensMDecl d,
      levels_tokensDecls ds]

theorem levels_tokensBrchs (bs : List (Nat × MExpr)) (l : Nat) :
    levels (tokensBrchs bs) l = some l := by
  cases bs with
  | nil => simp [tokensBrchs]
  | cons p bs =>
    obtain ⟨i, b⟩ := p
    simp [tokensBrchs, levels_append, levels_tokensM b, levels_tokensBrchs bs]

theorem levels_tokensDflt (o : Option MExpr) (l : Nat) :
    levels (tokensDflt o) l = some l := by
  cases o with
  | none => simp [tokensDflt]
  | some d => simp [tokensDflt, levels_append, levels_tokensM d]

theorem levels_tokensMDecl (d : MDecl) (l : Nat) :
    levels (tokensMDecl d) l = some l := by
  cases d with
  | mk func pars body =>
    simp [tokensMDecl, levels_append, levels_tokensM body]

end

/-! ## Claim C4: printer idempotence -/

/-- C4: rendering the same hand-built function declaration twice produces
identical text, although the second render starts from whatever indentation
level the first render left in the shared thread-local counter: every render
of an `MDecl` restores the counter, so both renders run from the same level
and emit the same string. -/
theorem C4_render_twice_same_text (d : MDecl) (l l1 l2 : Nat) (s1 s2 : String)
    (h1 : layout (tokensMDecl d) l = some (s1, l1))
    (h2 : layout (tokensMDecl d) l1 = some (s2, l2)) :
    s1 = s2 := by
  have hb : levels (tokensMDecl d) l = some l := levels_tokensMDecl d l
  have hmap := layout_levels (tokensMDecl d) l
  rw [h1, hb] at hmap
  have hl1 : l1 = l := by simpa using hmap
  rw [hl1, h1] at h2
  exact ((by simpa using h2 : s1 = s2 ∧ l1 = l2)).1

/-- Witness for C4: both renders of `fun f(x) = return x` from the initial
counter value 0 yield the same text. -/
theorem C4_render_twice_same_text_witness :
    layout (tokensMDecl (MDecl.mk "f" ["x"] (MExpr.Retn (Atom.Var "x")))) 0 =
      some ("fun f(x) = \n  return x", 0) ∧
    ("fun f(x) = \n  return x" : String) = "fun f(x) = \n  return x" := by
  refine ⟨by decide, ?_⟩
  exact C4_render_twice_same_text
    (MDecl.mk "f" ["x"] (MExpr.Retn (Atom.Var "x"))) 0 0 0
    "fun f(x) = \n  return x" "fun f(x) = \n  return x"
    (by decide) (by decide)

/-! ## Claim C7: atoms -/

/-- `Display for LitVal` from `printer.rs` (lines 59-68). -/
def LitVal.render : LitVal → String
  | .Int x => toString x
  | .Real x => x.repr
  | .Bool x => if x then "true" else "false"
  | .Char x => String.singleton x
  | .Unit => "()"

/-- The immediate-literal atom of each of the five literal kinds. -/
def litToAtom : LitVal → Atom
  | .Int x => .Int x
  | .Real x => .Real x
  | .Bool x => .Bool x
  | .Char x => .Char x
  | .Unit => .Unit

/-- C7: an atom is either a bound variable name or an immediate literal of
exactly one of the five literal kinds (the literal atoms are in bijection
with `LitVal` and disjoint from the variable atoms), and rendering an atom
emits only the operand text itself — a variable renders as its bare name and
a literal atom renders exactly as the literal does, with no binding or
control-transfer syntax added. -/
theorem C7_atom_is_name_or_literal :
    (∀ a : Atom, (∃ x, a = Atom.Var x) ∨ (∃ v : LitVal, a = litToAtom v)) ∧
    (∀ x v, Atom.Var x ≠ litToAtom v) ∧
    (∀ v w : LitVal, litToAtom v = litToAtom w → v = w) ∧
    (∀ x, (Atom.Var x).render = x) ∧
    (∀ v : LitVal, (litToAtom v).render = v.render) := by
  refine ⟨fun a => ?_, fun x v => ?_, fun v w h => ?_, fun x => rfl, fun v => ?_⟩
  · cases a with
    | Var x => exact Or.inl ⟨x, rfl⟩
    | Int x => exact Or.inr ⟨.Int x, rfl⟩
    | Real x => exact Or.inr ⟨.Real x, rfl⟩
    | Bool x => exact Or.inr ⟨.Bool x, rfl⟩
    | Char x => exact Or.inr ⟨.Char x, rfl⟩
    | Unit => exact Or.inr ⟨.Unit, rfl⟩
  · cases v <;> simp [litToAtom]
  · cases v <;> cases w <;> simp [litToAtom] at h <;> simp [h]
  · cases v <;> rfl

/-! ## Claim C2: ANF well-formedness of operand positions -/

/-- The shape of one operand position of a binding-chain step: in a general
(non-ANF) IR an operand position could hold either an atom or a nested
binding chain. -/
inductive OperandShape where
  | atom (a : Atom)
  | chain (e : MExpr)

/-- Whether an operand position holds an atom rather than a nested binding
form. -/
def isAtomShape : OperandShape → Bool
  | .atom _ => true
  | .chain _ => false

mutual

/-- All operand positions of every step of a binding chain, in order: the
argument fields of unary/binary ops, calls, foreign calls, loads, stores,
offsets, branch scrutinees and returns, collected through continuations,
branch arms, default arms, and nested declaration groups.  (`Alloc` has a
size, not an operand; binders and function names are not operands.) -/
def operandsM : MExpr → List OperandShape
  | .LetIn decls cont => operandsDecls decls ++ operandsM cont
  | .UnOp _ _ arg1 cont => [.atom arg1] ++ operandsM cont
  | .BinOp _ _ arg1 arg2 cont => [.atom arg1, .atom arg2] ++ operandsM cont
  | .Call _ _ args cont => args.map .atom ++ operandsM cont
  | .ExtCall _ _ args cont => args.map .atom ++ operandsM cont
  | .Retn arg1 => [.atom arg1]
  | .Alloc _ _ cont => operandsM cont
  | .Load _ arg1 _ cont => [.atom arg1] ++ operandsM cont
  | .Store arg1 _ arg2 cont => [.atom arg1, .atom arg2] ++ operandsM cont
  | .Offset _ arg1 _ cont => [.atom arg1] ++ operandsM cont
  | .Ifte _ arg1 brch1 brch2 cont =>
    [.atom arg1] ++ operandsM brch1 ++ operandsM brch2 ++ operandsM cont
  | .Switch _ arg1 brchs dflt cont =>
    [.atom arg1] ++ operandsBrchs brchs ++ operandsDflt dflt ++ operandsM cont

/-- Operand positions of a declaration group. -/
def operandsDecls : List MDecl → List OperandShape
  | [] => []
  | d :: ds => operandsMDecl d ++ operandsDecls ds

/-- Operand positions of the arms of a `Switch`. -/
def operandsBrchs : List (Nat × MExpr) → List OperandShape
  | [] => []
  | (_, b) :: bs => operandsM b ++ operandsBrchs bs

/-- Operand positions of an optional default arm. -/
def operandsDflt : Option MExpr → List OperandShape
  | none => []
  | some d => operandsM d

/-- Operand positions of a function declaration's body. -/
def operandsMDecl : MDecl → List OperandShape
  | .mk _ _ body => operandsM body

end

mutual

theorem operandsM_atoms (e : MExpr) :
    ∀ s ∈ operandsM e, isAtomShape s = true := by
  cases e with
  | LetIn decls cont =>
    intro s hs
    rw [operandsM] at hs
    rcases List.mem_append.1 hs with h | h
    · exact operandsDecls_atoms decls s h
    · exact operandsM_atoms cont s h
  | UnOp bind prim arg1 cont =>
    intro s hs
    rw [operandsM] at hs
    rcases List.mem_append.1 hs with h | h
    · rcases List.mem_singleton.1 h with rfl; rfl
    · exact operandsM_atoms cont s h
  | BinOp bind prim arg1 arg2 cont =>
    intro s hs
    rw [operandsM] at hs
    rcases List.mem_append.1 hs with h | h
    · rcases List.mem_cons.1 h with rfl | h
      · rfl
      · rcases List.mem_singleton.1 h with rfl; rfl
    · exact operandsM_atoms cont s h
  | Call bind func args cont =>
    intro s hs
    rw [operandsM] at hs
    rcases List.mem_append.1 hs with h | h
    · rcases List.mem_map.1 h with ⟨a, _, rfl⟩; rfl
    · exact operandsM_atoms cont s h
  | ExtCall bind func args cont =>
    intro s hs
    rw [operandsM] at hs
    rcases List.mem_append.1 hs with h | h
    · rcases List.mem_map.1 h with ⟨a, _, rfl⟩; rfl
    · exact operandsM_atoms cont s h
  | Retn arg1 =>
    intro s hs
    rw [operandsM] at hs
    rcases List.mem_singleton.1 hs with rfl; rfl
  | Alloc bind size cont =>
    intro s hs
    rw [operandsM] at hs
    exact operandsM_atoms cont s hs
  | Load bind arg1 index cont =>
    intro s hs
    rw [operandsM] at hs
    rcases List.mem_append.1 hs with h | h
    · rcases List.mem_singleton.1 h with rfl; rfl
    · exact operandsM_atoms cont s h
  | Store arg1 index arg2 cont =>
    intro s hs
    rw [operandsM] at hs
    rcases List.mem_append.1 hs with h | h
    · rcases List.mem_cons.1 h with rfl | h
      · rfl
      · rcases List.mem_singleton.1 h with rfl; rfl
    · exact operandsM_atoms cont s h
  | Offset bind arg1 index cont =>
    intro s hs
    rw [operandsM] at hs
    rcases List.mem_append.1 hs with h | h
    · rcases List.mem_singleton.1 h with rfl; rfl
    · exact operandsM_atoms cont s h
  | Ifte bind arg1 brch1 brch2 cont =>
    intro s hs
    rw [operandsM] at hs
    rcases List.mem_append.1 hs with h | h
    · rcases List.mem_append.1 h with h | h
      · rcases List.mem_append.1 h with h | h
        · rcases List.mem_singleton.1 h with rfl; rfl
        · exact operandsM_atoms brch1 s h
      · exact operandsM_atoms brch2 s h
    · exact operandsM_atoms cont s h
  | Switch bind arg1 brchs dflt cont =>
    intro s hs
    rw [operandsM] at hs
    rcases List.mem_append.1 hs with h | h
    · rcases List.mem_append.1 h with h | h
      · rcases List.mem_append.1 h with h | h
        · rcases List.mem_singleton.1 h with rfl; rfl
        · exact operandsBrchs_atoms brchs s h
      · exact operandsDflt_atoms dflt s h
    · exact operandsM_atoms cont s h

theorem operandsDecls_atoms (ds : List MDecl) :
    ∀ s ∈ operandsDecls ds, isAtomShape s = true := by
  cases ds with
  | nil => intro s hs; rw [operandsDecls] at hs; cases hs
  | cons d ds =>
    intro s hs
    rw [operandsDecls] at hs
    rcases List.mem_append.1 hs with h | h
    · exact operandsMDecl_atoms d s h
    · exact operandsDecls_atoms ds s h

theorem operandsBrchs_atoms (bs : List (Nat × MExpr)) :
    ∀ s ∈ operandsBrchs bs, isAtomShape s = true := by
  cases bs with
  | nil => intro s hs; rw [operandsBrchs] at hs; cases hs
  | cons p bs =>
    obtain ⟨i, b⟩ := p
    intro s hs
    rw [operandsBrchs] at hs
    rcases List.mem_append.1 hs with h | h
    · exact operandsM_atoms b s h
    · exact operandsBrchs_atoms bs s h

theorem operandsDflt_atoms (o : Option MExpr) :
    ∀ s ∈ operandsDflt o, isAtomShape s = true := by
  cases o with
  | none => intro s hs; rw [operandsDflt] at hs; cases hs
  | some d => intro s hs; rw [operandsDflt] at hs; exact operandsM_atoms d s hs

theorem operandsMDecl_atoms (d : MDecl) :
    ∀ s ∈ operandsMDecl d, isAtomShape s = true := by
  cases d with
  | mk func pars body =>
    intro s hs
    rw [operandsMDecl] at hs
    exact operandsM_atoms body s hs

end

/-- C2: in every constructible binding chain of the output IR, every operand
position of every step — through continuations, branch arms, default arms
and nested declaration groups — holds an atom, never a nested binding
form. -/
theorem C2_every_operand_is_atom (e : MExpr) :
    ∀ s ∈ operandsM e, isAtomShape s = true :=
  operandsM_atoms e

/-- Witness for C2: a concrete operand position of a concrete chain. -/
theorem C2_every_operand_is_atom_witness :
    OperandShape.atom (Atom.Var "a") ∈
      operandsM (MExpr.UnOp "x" UnOpPrim.Move (Atom.Var "a")
        (MExpr.Retn (Atom.Var "x"))) ∧
    isAtomShape (OperandShape.atom (Atom.Var "a")) = true := by
  have hmem : OperandShape.atom (Atom.Var "a") ∈
      operandsM (MExpr.UnOp "x" UnOpPrim.Move (Atom.Var "a")
        (MExpr.Retn (Atom.Var "x"))) := by
    have h : operandsM (MExpr.UnOp "x" UnOpPrim.Move (Atom.Var "a")
        (MExpr.Retn (Atom.Var "x"))) =
        [OperandShape.atom (Atom.Var "a"), OperandShape.atom (Atom.Var "x")] := rfl
    rw [h]
    exact List.mem_cons_self _ _
  exact ⟨hmem, C2_every_operand_is_atom _ _ hmem⟩

/-! ## Claim C1: the committed textual forms

Spec section 6 commits one concrete textual form per step.  `specTokensM`
below is written from the spec's templates, parameterised over the two
pieces of punctuation the templates fix inside their quoted text but the
code renders differently: `bsep`, the separator between the two arguments of
a binary primitive (the template `let X = OP(A1[, A2]);` reads `", "`), and
`rsuf`, the terminator of the return step (the template `return A;` reads
`";"`).  Everything the spec leaves to prose (line breaks, indentation of
bodies and arms) follows the code's layout. -/

mutual

/-- Modelled from the spec: the committed body-step forms of section 6,
with the binary-argument separator `bsep` and return suffix `rsuf` as
parameters (the spec's literal reading is `bsep = ", "`, `rsuf = ";"`). -/
def specTokensM (bsep rsuf : String) : MExpr → List Tok
  | .LetIn decls cont =>
    [Tok.str "letrec", Tok.indt] ++ specTokensDecls bsep rsuf decls ++
    [Tok.dedt, Tok.nwln, Tok.str "in", Tok.indt, Tok.nwln] ++
    specTokensM bsep rsuf cont ++ [Tok.dedt, Tok.nwln, Tok.str "end"]
  | .UnOp bind prim arg1 cont =>
    [Tok.str ("let " ++ bind ++ " = " ++ prim.render ++ "(" ++ arg1.render ++ ");"),
     Tok.nwln] ++ specTokensM bsep rsuf cont
  | .BinOp bind prim arg1 arg2 cont =>
    [Tok.str ("let " ++ bind ++ " = " ++ prim.render ++ "(" ++ arg1.render ++ bsep
        ++ arg2.render ++ ");"),
     Tok.nwln] ++ specTokensM bsep rsuf cont
  | .Call bind func args cont =>
    [Tok.str ("let " ++ bind ++ " = " ++ func ++ "("
        ++ sepBy ", " (args.map Atom.render) ++ ");"),
     Tok.nwln] ++ specTokensM bsep rsuf cont
  | .ExtCall bind func args cont =>
    [Tok.str ("let " ++ bind ++ " = " ++ func ++ "("
        ++ sepBy ", " (args.map Atom.render) ++ ");"),
     Tok.nwln] ++ specTokensM bsep rsuf cont
  | .Retn arg1 =>
    [Tok.str ("return " ++ arg1.render ++ rsuf)]
  | .Alloc bind size cont =>
    [Tok.str ("let " ++ bind ++ " = alloc[" ++ toString size ++ "];"),
     Tok.nwln] ++ specTokensM bsep rsuf cont
  | .Load bind arg1 index cont =>
    [Tok.str ("let " ++ bind ++ " = load " ++ arg1.render ++ "["
        ++ toString index ++ "];"),
     Tok.nwln] ++ specTokensM bsep rsuf cont
  | .Store arg1 index arg2 cont =>
    [Tok.str ("store " ++ arg1.render ++ "[" ++ toString index ++ "] := "
        ++ arg2.render ++ ";"),
     Tok.nwln] ++ specTokensM bsep rsuf cont
  | .Offset bind arg1 index cont =>
    [Tok.str ("let " ++ bind ++ " = offset " ++ arg1.render ++ "["
        ++ toString index ++ "];"),
     Tok.nwln] ++ specTokensM bsep rsuf cont
  | .Ifte bind arg1 brch1 brch2 cont =>
    [Tok.str ("let " ++ bind ++ " = if(" ++ arg1.render ++ ") then"),
     Tok.indt, Tok.nwln] ++ specTokensM bsep rsuf brch1 ++
    [Tok.dedt, Tok.nwln, Tok.str "else", Tok.indt, Tok.nwln] ++
    specTokensM bsep rsuf brch2 ++
    [Tok.dedt, Tok.nwln, Tok.str ";", Tok.nwln] ++ specTokensM bsep rsuf cont
  | .Switch bind arg1 brchs dflt cont =>
    [Tok.str ("let " ++ bind ++ " = switch(" ++ arg1.render ++ ") \x7b"),
     Tok.indt] ++ specTokensBrchs bsep rsuf brchs ++ specTokensDflt bsep rsuf dflt ++
    [Tok.dedt, Tok.nwln, Tok.str "\x7d", Tok.nwln] ++ specTokensM bsep rsuf cont

/-- Spec-side form of a nested declaration group. -/
def specTokensDecls (bsep rsuf : String) : List MDecl → List Tok
  | [] => []
  | d :: ds =>
    [Tok.nwln] ++ specTokensMDecl bsep rsuf d ++ specTokensDecls bsep rsuf ds

/-- Spec-side form of `case I:` arms. -/
def specTokensBrchs (bsep rsuf : String) : List (Nat × MExpr) → List Tok
  | [] => []
  | (i, b) :: bs =>
    [Tok.nwln, Tok.str ("case " ++ toString i ++ ":"), Tok.indt, Tok.nwln] ++
    specTokensM bsep rsuf b ++ [Tok.dedt] ++ specTokensBrchs bsep rsuf bs

/-- Spec-side form of the `default:` arm. -/
def specTokensDflt (bsep rsuf : String) : Option MExpr → List Tok
  | none => []
  | some d =>
    [Tok.nwln, Tok.str "default:", Tok.indt, Tok.nwln] ++
    specTokensM bsep rsuf d ++ [Tok.dedt]

/-- Modelled from the spec: the committed declaration-header form
`fun NAME(P1, ..., Pn) =` followed by the indented body. -/
def specTokensMDecl (bsep rsuf : String) : MDecl → List Tok
  | .mk func pars body =>
    [Tok.str ("fun " ++ func ++ "(" ++ sepBy ", " pars ++ ") = "),
     Tok.indt, Tok.nwln] ++ specTokensM bsep rsuf body ++ [Tok.dedt]

end

/-- C1 counterexample: the claim as stated fails.  For
`fun f(a, b) = let r = iadd(a,b); return r` the code renders the binary
primitive as `iadd(a,b)` (no space after the comma) and the return step as
`return r` (no trailing semicolon), while the committed templates
`let X = OP(A1[, A2]);` and `return A;` read `iadd(a, b)` and `return r;`. -/
theorem C1_rendered_forms_counterexample :
    layout (tokensMDecl (MDecl.mk "f" ["a", "b"]
      (MExpr.BinOp "r" BinOpPrim.IAdd (Atom.Var "a") (Atom.Var "b")
        (MExpr.Retn (Atom.Var "r"))))) 0 ≠
    layout (specTokensMDecl ", " ";" (MDecl.mk "f" ["a", "b"]
      (MExpr.BinOp "r" BinOpPrim.IAdd (Atom.Var "a") (Atom.Var "b")
        (MExpr.Retn (Atom.Var "r"))))) 0 := by
  decide

mutual

theorem specTokensM_eq (e : MExpr) : specTokensM "," "" e = tokensM e := by
  cases e with
  | LetIn decls cont =>
    rw [specTokensM, tokensM, specTokensDecls_eq decls, specTokensM_eq cont]
  | UnOp bind prim arg1 cont =>
    rw [specTokensM, tokensM, specTokensM_eq cont]
  | BinOp bind prim arg1 arg2 cont =>
    rw [specTokensM, tokensM, specTokensM_eq cont]
  | Call bind func args cont =>
    rw [specTokensM, tokensM, specTokensM_eq cont]
  | ExtCall bind func args cont =>
    rw [specTokensM, tokensM, specTokensM_eq cont]
  | Retn arg1 =>
    rw [specTokensM, tokensM]
    simp
  | Alloc bind size cont =>
    rw [specTokensM, tokensM, specTokensM_eq cont]
  | Load bind arg1 index cont =>
    rw [specTokensM, tokensM, specTokensM_eq cont]
  | Store arg1 index arg2 cont =>
    rw [specTokensM, tokensM, specTokensM_eq cont]
  | Offset bind arg1 index cont =>
    rw [specTokensM, tokensM, specTokensM_eq cont]
  | Ifte bind arg1 brch1 brch2 cont =>
    rw [specTokensM, tokensM, specTokensM_eq brch1, specTokensM_eq brch2,
      specTokensM_eq cont]
  | Switch bind arg1 brchs dflt cont =>
    rw [specTokensM, tokensM, specTokensBrchs_eq brchs, specTokensDflt_eq dflt,
      specTokensM_eq cont]

theorem specTokensDecls_eq (ds : List MDecl) :
    specTokensDecls "," "" ds = tokensDecls ds := by
  cases ds with
  | nil => rw [specTokensDecls, tokensDecls]
  | cons d ds =>
    rw [specTokensDecls, tokensDecls, specTokensMDecl_eq d, specTokensDecls_eq ds]

theorem specTokensBrchs_eq (bs : List (Nat × MExpr)) :
    specTokensBrchs "," "" bs = tokensBrchs bs := by
  cases bs with
  | nil => rw [specTokensBrchs, tokensBrchs]
  | cons p bs =>
    obtain ⟨i, b⟩ := p
    rw [specTokensBrchs, tokensBrchs, specTokensM_eq b, specTokensBrchs_eq bs]

theorem specTokensDflt_eq (o : Option MExpr) :
    specTokensDflt "," "" o = tokensDflt o := by
  cases o with
  | none => rw [specTokensDflt, tokensDflt]
  | some d => rw [specTokensDflt, tokensDflt, specTokensM_eq d]

theorem specTokensMDecl_eq (d : MDecl) :
    specTokensMDecl "," "" d = tokensMDecl d := by
  cases d with
  | mk func pars body =>
    rw [specTokensMDecl, tokensMDecl, specTokensM_eq body]

end

/-- C1 (amended): the `Display` rendering of every lowered declaration and
every binding-chain node produces exactly the committed forms of section 6,
with two template corrections: a binary primitive renders its two arguments
separated by a bare comma (`let X = OP(A1,A2);`), and the return step
renders with no trailing semicolon (`return A`).  Token streams coincide,
hence the rendered text coincides from every starting indentation level. -/
theorem C1_rendered_forms_amended :
    (∀ d : MDecl, specTokensMDecl "," "" d = tokensMDecl d) ∧
    (∀ e : MExpr, specTokensM "," "" e = tokensM e) ∧
    (∀ (d : MDecl) (l : Nat),
      layout (specTokensMDecl "," "" d) l = layout (tokensMDecl d) l) :=
  ⟨specTokensMDecl_eq, specTokensM_eq,
   fun d l => by rw [specTokensMDecl_eq d]⟩

/-! ## The surface printer (`Display for Expr/Decl/...` in `printer.rs`)

The surface `Expr`/`Decl` the printer matches on (with `Ifte`, `Begin`,
`Letrec`, typed parameters and generics) comes from an AST version whose
declaration file is absent from `src/`; the types below are modelled with
exactly the constructors and fields the printer destructures.  `assert!`
failures (panics) are modelled by `Option`-valued renderers returning
`none`. -/

namespace Printer

/-- The `Builtin` enum as matched by the printer's `Display for Builtin`
(the twenty-five-variant version of the AST the printer was written
against; its declaration file is absent from `src/`). -/
inductive Builtin where
  | IAdd
  | ISub
  | IMul
  | IDiv
  | IRem
  | INeg
  | RAdd
  | RSub
  | RMul
  | RDiv
  | BAnd
  | BOr
  | BNot
  | ICmpEq
  | ICmpNe
  | ICmpGr
  | ICmpGe
  | ICmpLs
  | ICmpLe
  | RCmpEq
  | RCmpNe
  | RCmpGr
  | RCmpGe
  | RCmpLs
  | RCmpLe
deriving DecidableEq

/-- `Display for Builtin` from `printer.rs` (lines 83-113). -/
def Builtin.render : Builtin → String
  | .IAdd => "iadd"
  | .ISub => "isub"
  | .IMul => "imul"
  | .IDiv => "idiv"
  | .IRem => "irem"
  | .INeg => "ineg"
  | .RAdd => "radd"
  | .RSub => "rsub"
  | .RMul => "rmul"
  | .RDiv => "rdiv"
  | .BAnd => "band"
  | .BOr => "bor"
  | .BNot => "bnot"
  | .ICmpEq => "icmpeq"
  | .ICmpNe => "icmpne"
  | .ICmpGr => "icmpgr"
  | .ICmpGe => "icmpge"
  | .ICmpLs => "icmpls"
  | .ICmpLe => "icmple"
  | .RCmpEq => "rcmpeq"
  | .RCmpNe => "rcmpne"
  | .RCmpGr => "rcmpgr"
  | .RCmpGe => "rcmpge"
  | .RCmpLs => "rcmpls"
  | .RCmpLe => "rcmple"

end Printer

/-- `Display for LitType` from `printer.rs` (lines 71-81). -/
def LitType.render : LitType → String
  | .Int => "Int"
  | .Real => "Real"
  | .Bool => "Bool"
  | .Char => "Char"
  | .Unit => "()"

mutual

/-- `Display for Pattern` from `printer.rs` (lines 217-239). -/
def renderPattern : Pattern → String
  | .Var v _ => v
  | .Lit l _ => l.render
  | .Cons c pars _ =>
    if pars.isEmpty then c else c ++ "(" ++ renderPatterns pars ++ ")"
  | .Wild _ => "_"

/-- `pars.iter().format(&", ")` over subpatterns. -/
def renderPatterns : List Pattern → String
  | [] => ""
  | [p] => renderPattern p
  | p :: q :: ps => renderPattern p ++ ", " ++ renderPatterns (q :: ps)

end

mutual

/-- `Display for Type` from `printer.rs` (lines 335-355); the
`assert!(!args.is_empty())` on a type application is modelled by `none`. -/
def renderTy : Ty → Option String
  | .Lit l _ => some l.render
  | .Var v _ => some v
  | .Fun pars res _ =>
    match renderTys pars, renderTy res with
    | some ps, some r => some ("fn(" ++ ps ++ ") -> " ++ r)
    | _, _ => none
  | .App c args _ =>
    if args.isEmpty then none
    else
      match renderTys args with
      | some sargs => some (c ++ "[" ++ sargs ++ "]")
      | none => none

/-- `format(&", ")` over types. -/
def renderTys : List Ty → Option String
  | [] => some ""
  | [t] => renderTy t
  | t :: u :: ts =>
    match renderTy t, renderTys (u :: ts) with
    | some a, some b => some (a ++ ", " ++ b)
    | _, _ => none

end

/-- `Display for Varient` from `printer.rs` (lines 248-258). -/
def renderVarient (v : Varient) : Option String :=
  if v.pars.isEmpty then some v.cons
  else
    match renderTys v.pars with
    | some ps => some (v.cons ++ "[" ++ ps ++ "]")
    | none => none

/-- The `for var in vars` loop of the `Data` arm: `{NWLN}| {var}` per
variant. -/
def tokensVars : List Varient → Option (List Tok)
  | [] => some []
  | v :: vs =>
    match renderVarient v, tokensVars vs with
    | some sv, some rest => some ([Tok.nwln, Tok.str ("| " ++ sv)] ++ rest)
    | _, _ => none

/-- The typed parameter list of a `Func` declaration:
`format!("{par}: {typ}")` joined by `", "`. -/
def renderParsTyped : List (Ident × Ty) → Option String
  | [] => some ""
  | [(p, t)] =>
    match renderTy t with
    | some ts => some (p ++ ": " ++ ts)
    | none => none
  | (p, t) :: q :: ps =>
    match renderTy t, renderParsTyped (q :: ps) with
    | some ts, some rest => some (p ++ ": " ++ ts ++ ", " ++ rest)
    | _, _ => none

/-- The result-type suffix of a `Func` declaration: empty for the unit
literal type, `": {res}"` otherwise. -/
def renderRes : Ty → Option String
  | .Lit .Unit _ => some ""
  | t =>
    match renderTy t with
    | some ts => some (": " ++ ts)
    | none => none

namespace Printer

mutual

/-- The surface expression type the printer's `Display for Expr`
destructures (`printer.rs` lines 115-173); its declaration file is absent
from `src/`, so the constructors and fields are exactly those the match
arms use. -/
inductive Expr where
  | Lit (lit : LitVal)
  | Var (var : Ident)
  | Prim (prim : Builtin) (args : List Expr)
  | Fun (pars : List Ident) (body : Expr)
  | App (func : Expr) (args : List Expr)
  | ExtCall (func : InternStr) (args : List Expr)
  | Cons (cons : Ident) (args : List Expr)
  | Case (expr : Expr) (rules : List Rule)
  | Ifte (cond : Expr) (trbr : Expr) (flbr : Expr)
  | Begin (block : Block)
  | Letrec (decls : List Decl) (block : Block)

/-- A statement block (`Display for Block`, `printer.rs` lines 175-196). -/
inductive Block where
  | mk (stmts : List Stmt) (retn : Option Expr)

/-- A statement (`Display for Stmt`, `printer.rs` lines 198-215). -/
inductive Stmt where
  | Bind (bind : Ident) (typ : Option Ty) (expr : Expr)
  | Do (expr : Expr)

/-- A case rule (`Display for Rule`, `printer.rs` lines 241-246). -/
inductive Rule where
  | mk (patn : Pattern) (body : Expr)

/-- The surface declaration type the printer's `Display for Decl`
destructures (`printer.rs` lines 260-333); `Decl::Type` is named `Typ`
because `Type` is a Lean keyword. -/
inductive Decl where
  | Func (name : Ident) (gens : List Ident) (pars : List (Ident × Ty))
      (res : Ty) (body : Expr)
  | Data (name : Ident) (pars : List Ident) (vars : List Varient)
  | Typ (name : Ident) (pars : List Ident) (typ : Ty)
  | Extern (name : InternStr) (gens : List Ident) (typ : Ty)

end

mutual

/-- `Display for Expr` from `printer.rs` (lines 115-173) as a token stream;
the `assert!(!rules.is_empty())` of the `Case` arm is modelled by `none`. -/
def tokensE : Expr → Option (List Tok)
  | .Lit lit => some [Tok.str lit.render]
  | .Var v => some [Tok.str v]
  | .Prim prim args =>
    match tokensArgs args with
    | some a => some ([Tok.str ("@" ++ prim.render ++ "(")] ++ a ++ [Tok.str ")"])
    | none => none
  | .Fun pars body =>
    match tokensE body with
    | some b =>
      some ([Tok.str ("fn (" ++ sepBy ", " pars ++ ") \x7b"), Tok.indt, Tok.nwln]
        ++ b ++ [Tok.dedt, Tok.nwln, Tok.str "\x7d"])
    | none => none
  | .App func args =>
    match tokensE func, tokensArgs args with
    | some ft, some a => some (ft ++ [Tok.str "("] ++ a ++ [Tok.str ")"])
    | _, _ => none
  | .ExtCall func args =>
    match tokensArgs args with
    | some a => some ([Tok.str ("#" ++ func ++ "(")] ++ a ++ [Tok.str ")"])
    | none => none
  | .Cons cons args =>
    match tokensArgs args with
    | some a => some ([Tok.str (cons ++ "(")] ++ a ++ [Tok.str ")"])
    | none => none
  | .Case scrut rules =>
    if rules.isEmpty then none
    else
      match tokensE scrut, tokensRules rules with
      | some st, some rt =>
        some ([Tok.str "case "] ++ st ++ [Tok.str " of"] ++ rt ++
          [Tok.nwln, Tok.str "end"])
      | _, _ => none
  | .Ifte cond trbr flbr =>
    match tokensE cond, tokensE trbr, tokensE flbr with
    | some c, some t, some e =>
      some ([Tok.str "if "] ++ c ++ [Tok.nwln, Tok.str "then "] ++ t ++
        [Tok.nwln, Tok.str "else "] ++ e)
    | _, _, _ => none
  | .Begin block =>
    match tokensBlock block with
    | some b =>
      some ([Tok.str "begin", Tok.indt, Tok.nwln] ++ b ++
        [Tok.dedt, Tok.nwln, Tok.str "end"])
    | none => none
  | .Letrec decls block =>
    match tokensDeclsNwln decls, tokensBlock block with
    | some ds, some b =>
      some ([Tok.str "letrec", Tok.indt] ++ ds ++
        [Tok.dedt, Tok.nwln, Tok.str "in", Tok.indt, Tok.nwln] ++ b ++
        [Tok.dedt, Tok.nwln, Tok.str "end"])
    | _, _ => none

/-- `args.iter().format(&", ")` over argument expressions. -/
def tokensArgs : List Expr → Option (List Tok)
  | [] => some []
  | [e] => tokensE e
  | e :: f :: es =>
    match tokensE e, tokensArgs (f :: es) with
    | some a, some b => some (a ++ [Tok.str ", "] ++ b)
    | _, _ => none

/-- `Display for Block` from `printer.rs` (lines 175-196): the first item
is rendered bare, every further statement and the trailing return
expression are prefixed by one `NWLN`. -/
def tokensBlock : Block → Option (List Tok)
  | .mk [] none => some []
  | .mk [] (some r) => tokensE r
  | .mk (st :: ss) retn =>
    match tokensStmt st, tokensStmtsNwln ss, tokensRetnNwln retn with
    | some a, some b, some c => some (a ++ b ++ c)
    | _, _, _ => none

/-- The non-first statements of a block, each `NWLN`-prefixed. -/
def tokensStmtsNwln : List Stmt → Option (List Tok)
  | [] => some []
  | st :: ss =>
    match tokensStmt st, tokensStmtsNwln ss with
    | some a, some b => some ([Tok.nwln] ++ a ++ b)
    | _, _ => none

/-- The `NWLN`-prefixed trailing return expression of a non-singleton
block, if present. -/
def tokensRetnNwln : Option Expr → Option (List Tok)
  | none => some []
  | some r =>
    match tokensE r with
    | some a => some ([Tok.nwln] ++ a)
    | none => none

/-- `Display for Stmt` from `printer.rs` (lines 198-215). -/
def tokensStmt : Stmt → Option (List Tok)
  | .Bind bind typ expr =>
    match typ with
    | some t =>
      match renderTy t, tokensE expr with
      | some ts, some e =>
        some ([Tok.str ("let " ++ bind ++ ": " ++ ts ++ " = ")] ++ e ++
          [Tok.str ";"])
      | _, _ => none
    | none =>
      match tokensE expr with
      | some e => some ([Tok.str ("let " ++ bind ++ " = ")] ++ e ++ [Tok.str ";"])
      | none => none
  | .Do expr =>
    match tokensE expr with
    | some e => some (e ++ [Tok.str ";"])
    | none => none

/-- The `for rule in rules` loop of the `Case` arm: `{NWLN}| {rule}` per
rule. -/
def tokensRules : List Rule → Option (List Tok)
  | [] => some []
  | r :: rs =>
    match tokensRule r, tokensRules rs with
    | some a, some b => some ([Tok.nwln, Tok.str "| "] ++ a ++ b)
    | _, _ => none

/-- `Display for Rule` from `printer.rs` (lines 241-246):
`{patn} => {body}`. -/
def tokensRule : Rule → Option (List Tok)
  | .mk patn body =>
    match tokensE body with
    | some b => some ([Tok.str (renderPattern patn ++ " => ")] ++ b)
    | none => none

/-- The `for decl in decls` loop of the `Letrec` arm: `{NWLN}{decl}` per
declaration. -/
def tokensDeclsNwln : List Decl → Option (List Tok)
  | [] => some []
  | d :: ds =>
    match tokensDecl d, tokensDeclsNwln ds with
    | some a, some b => some ([Tok.nwln] ++ a ++ b)
    | _, _ => none

/-- `Display for Decl` from `printer.rs` (lines 260-333); the
`assert!(!vars.is_empty())` of the `Data` arm is modelled by `none`. -/
def tokensDecl : Decl → Option (List Tok)
  | .Func name gens pars res body =>
    match renderParsTyped pars, renderRes res, tokensE body with
    | some ps, some rs, some b =>
      some ([Tok.str ("fun " ++ name ++
        (if gens.isEmpty then "" else "[" ++ sepBy ", " gens ++ "]") ++
        "(" ++ ps ++ ")" ++ rs ++ " = ")] ++ b)
    | _, _, _ => none
  | .Data name pars vars =>
    if vars.isEmpty then none
    else
      match tokensVars vars with
      | some vs =>
        some ([Tok.str ((if pars.isEmpty then "data " ++ name
            else "data " ++ name ++ "[" ++ sepBy ", " pars ++ "]") ++ " =")] ++
          vs ++ [Tok.nwln, Tok.str "end"])
      | none => none
  | .Typ name pars typ =>
    match renderTy typ with
    | some t =>
      some [Tok.str (if pars.isEmpty then "type " ++ name ++ " = " ++ t ++ ";"
        else "type " ++ name ++ "[" ++ sepBy ", " pars ++ "] = " ++ t ++ ";")]
    | none => none
  | .Extern name gens typ =>
    match renderTy typ with
    | some t =>
      some [Tok.str ("extern " ++ name ++
        (if gens.isEmpty then "" else "[" ++ sepBy ", " gens ++ "]") ++
        ": " ++ t ++ ";")]
    | none => none

end

end Printer

/-! ### Well-formedness: inputs avoiding the asserted-empty shapes -/

mutual

/-- A type avoids the panicking shape: no type application anywhere in it
has an empty argument list. -/
def wfTy : Ty → Bool
  | .Lit _ _ => true
  | .Var _ _ => true
  | .Fun pars res _ => wfTys pars && wfTy res
  | .App _ args _ => !args.isEmpty && wfTys args

/-- All types in the list avoid the panicking shape. -/
def wfTys : List Ty → Bool
  | [] => true
  | t :: ts => wfTy t && wfTys ts

end

/-- A variant's field types avoid the panicking shapes. -/
def wfVarient (v : Varient) : Bool := wfTys v.pars

/-- All variants in the list avoid the panicking shapes. -/
def wfVars : List Varient → Bool
  | [] => true
  | v :: vs => wfVarient v && wfVars vs

/-- All parameter types avoid the panicking shapes. -/
def wfParsTyped : List (Ident × Ty) → Bool
  | [] => true
  | (_, t) :: ps => wfTy t && wfParsTyped ps

mutual

theorem renderTy_total (t : Ty) (h : wfTy t = true) : (renderTy t).isSome := by
  cases t with
  | Lit l sp => simp [renderTy]
  | Var v sp => simp [renderTy]
  | Fun pars res sp =>
    rw [wfTy, Bool.and_eq_true] at h
    obtain ⟨ps, hps⟩ := Option.isSome_iff_exists.1 (renderTys_total pars h.1)
    obtain ⟨r, hr⟩ := Option.isSome_iff_exists.1 (renderTy_total res h.2)
    rw [renderTy, hps, hr]
    rfl
  | App c args sp =>
    rw [wfTy, Bool.and_eq_true] at h
    have hne : ¬(args.isEmpty = true) := by simpa using h.1
    obtain ⟨sargs, hs⟩ := Option.isSome_iff_exists.1 (renderTys_total args h.2)
    rw [renderTy, if_neg hne, hs]
    rfl

theorem renderTys_total (ts : List Ty) (h : wfTys ts = true) :
    (renderTys ts).isSome := by
  cases ts with
  | nil => simp [renderTys]
  | cons t rest =>
    cases rest with
    | nil =>
      rw [wfTys, Bool.and_eq_true] at h
      rw [renderTys]
      exact renderTy_total t h.1
    | cons u ts' =>
      rw [wfTys, Bool.and_eq_true] at h
      obtain ⟨a, ha⟩ := Option.isSome_iff_exists.1 (renderTy_total t h.1)
      obtain ⟨b, hb⟩ := Option.isSome_iff_exists.1 (renderTys_total (u :: ts') h.2)
      rw [renderTys, ha, hb]
      rfl

end

theorem renderVarient_total (v : Varient) (h : wfVarient v = true) :
    (renderVarient v).isSome := by
  rw [renderVarient]
  by_cases he : v.pars.isEmpty = true
  · rw [if_pos he]; rfl
  · obtain ⟨ps, hs⟩ := Option.isSome_iff_exists.1 (renderTys_total v.pars h)
    rw [if_neg he, hs]
    rfl

theorem tokensVars_total (vs : List Varient) (h : wfVars vs = true) :
    (tokensVars vs).isSome := by
  induction vs with
  | nil => simp [tokensVars]
  | cons v rest ih =>
    rw [wfVars, Bool.and_eq_true] at h
    obtain ⟨sv, hv⟩ := Option.isSome_iff_exists.1 (renderVarient_total v h.1)
    obtain ⟨rt, hr⟩ := Option.isSome_iff_exists.1 (ih h.2)
    rw [tokensVars, hv, hr]
    rfl

theorem renderParsTyped_total (ps : List (Ident × Ty))
    (h : wfParsTyped ps = true) : (renderParsTyped ps).isSome := by
  induction ps with
  | nil => simp [renderParsTyped]
  | cons p rest ih =>
    obtain ⟨x, t⟩ := p
    rw [wfParsTyped, Bool.and_eq_true] at h
    obtain ⟨ts, ht⟩ := Option.isSome_iff_exists.1 (renderTy_total t h.1)
    cases rest with
    | nil => rw [renderParsTyped, ht]; rfl
    | cons q ps' =>
      obtain ⟨rs, hr⟩ := Option.isSome_iff_exists.1 (ih h.2)
      rw [renderParsTyped, ht, hr]
      rfl

theorem renderRes_total (t : Ty) (h : wfTy t = true) : (renderRes t).isSome := by
  obtain ⟨ts, hts⟩ := Option.isSome_iff_exists.1 (renderTy_total t h)
  cases t with
  | Lit l sp => cases l <;> simp [renderRes, renderTy]
  | Var v sp => rfl
  | Fun pars res sp => simp only [renderRes]; rw [hts]; rfl
  | App c args sp => simp only [renderRes]; rw [hts]; rfl

namespace Printer

theorem tokensVars_levels (vs : List Varient) (ts : List Tok)
    (h : tokensVars vs = some ts) : ∀ l, levels ts l = some l := by
  induction vs generalizing ts with
  | nil =>
    rw [tokensVars] at h
    injection h with h
    subst h
    intro l
    simp
  | cons v rest ih =>
    rw [tokensVars] at h
    split at h
    next sv rt hv hr =>
      injection h with h
      subst h
      intro l
      simp [levels_append, ih rt hr]
    next => cases h

mutual

theorem tokensE_levels (e : Expr) (ts : List Tok) (h : tokensE e = some ts) :
    ∀ l, levels ts l = some l := by
  cases e with
  | Lit lit =>
    rw [tokensE] at h
    injection h with h
    subst h
    intro l
    simp
  | Var v =>
    rw [tokensE] at h
    injection h with h
    subst h
    intro l
    simp
  | Prim prim args =>
    rw [tokensE] at h
    split at h
    next a ha =>
      injection h with h
      subst h
      intro l
      simp [levels_append, tokensArgs_levels args a ha]
    next => cases h
  | Fun pars body =>
    rw [tokensE] at h
    split at h
    next b hb =>
      injection h with h
      subst h
      intro l
      simp [levels_append, tokensE_levels body b hb]
    next => cases h
  | App func args =>
    rw [tokensE] at h
    split at h
    next ft a hf ha =>
      injection h with h
      subst h
      intro l
      simp [levels_append, tokensE_levels func ft hf, tokensArgs_levels args a ha]
    next => cases h
  | ExtCall func args =>
    rw [tokensE] at h
    split at h
    next a ha =>
      injection h with h
      subst h
      intro l
      simp [levels_append, tokensArgs_levels args a ha]
    next => cases h
  | Cons cons args =>
    rw [tokensE] at h
    split at h
    next a ha =>
      injection h with h
      subst h
      intro l
      simp [levels_append, tokensArgs_levels args a ha]
    next => cases h
  | Case scrut rules =>
    rw [tokensE] at h
    split at h
    next => cases h
    next hne =>
      split at h
      next st rt hs hr =>
        injection h with h
        subst h
        intro l
        simp [levels_append, tokensE_levels scrut st hs,
          tokensRules_levels rules rt hr]
      next => cases h
  | Ifte cond trbr flbr =>
    rw [tokensE] at h
    split at h
    next c t e hc ht he =>
      injection h with h
      subst h
      intro l
      simp [levels_append, tokensE_levels cond c hc, tokensE_levels trbr t ht,
        tokensE_levels flbr e he]
    next => cases h
  | Begin block =>
    rw [tokensE] at h
    split at h
    next b hb =>
      injection h with h
      subst h
      intro l
      simp [levels_append, tokensBlock_levels block b hb]
    next => cases h
  | Letrec decls block =>
    rw [tokensE] at h
    split at h
    next ds b hd hb =>
      injection h with h
      subst h
      intro l
      simp [levels_append, tokensDeclsNwln_levels decls ds hd,
        tokensBlock_levels block b hb]
    next => cases h

theorem tokensArgs_levels (es : List Expr) (ts : List Tok)
    (h : tokensArgs es = some ts) : ∀ l, levels ts l = some l := by
  cases es with
  | nil =>
    rw [tokensArgs] at h
    injection h with h
    subst h
    intro l
    simp
  | cons e rest =>
    cases rest with
    | nil =>
      rw [tokensArgs] at h
      exact tokensE_levels e ts h
    | cons f es' =>
      rw [tokensArgs] at h
      split at h
      next a b ha hb =>
        injection h with h
        subst h
        intro l
        simp [levels_append, tokensE_levels e a ha,
          tokensArgs_levels (f :: es') b hb]
      next => cases h

theorem tokensBlock_levels (b : Block) (ts : List Tok)
    (h : tokensBlock b = some ts) : ∀ l, levels ts l = some l := by
  cases b with
  | mk stmts retn =>
    cases stmts with
    | nil =>
      cases retn with
      | none =>
        rw [tokensBlock] at h
        injection h with h
        subst h
        intro l
        simp
      | some r =>
        rw [tokensBlock] at h
        exact tokensE_levels r ts h
    | cons st ss =>
      rw [tokensBlock] at h
      split at h
      next a b2 c ha hb hc =>
        injection h with h
        subst h
        intro l
        simp [levels_append, tokensStmt_levels st a ha,
          tokensStmtsNwln_levels ss b2 hb, tokensRetnNwln_levels retn c hc]
      next => cases h

theorem tokensStmtsNwln_levels (ss : List Stmt) (ts : List Tok)
    (h : tokensStmtsNwln ss = some ts) : ∀ l, levels ts l = some l := by
  cases ss with
  | nil =>
    rw [tokensStmtsNwln] at h
    injection h with h
    subst h
    intro l
    simp
  | cons st rest =>
    rw [tokensStmtsNwln] at h
    split at h
    next a b ha hb =>
      injection h with h
      subst h
      intro l
      simp [levels_append, tokensStmt_levels st a ha,
        tokensStmtsNwln_levels rest b hb]
    next => cases h

theorem tokensRetnNwln_levels (r : Option Expr) (ts : List Tok)
    (h : tokensRetnNwln r = some ts) : ∀ l, levels ts l = some l := by
  cases r with
  | none =>
    rw [tokensRetnNwln] at h
    injection h with h
    subst h
    intro l
    simp
  | some e =>
    rw [tokensRetnNwln] at h
    split at h
    next a ha =>
      injection h with h
      subst h
      intro l
      simp [levels_append, tokensE_levels e a ha]
    next => cases h

theorem tokensStmt_levels (st : Stmt) (ts : List Tok)
    (h : tokensStmt st = some ts) : ∀ l, levels ts l = some l := by
  cases st with
  | Bind bind typ expr =>
    cases typ with
    | some t =>
      rw [tokensStmt] at h
      split at h
      next tstr a ht ha =>
        injection h with h
        subst h
        intro l
        simp [levels_append, tokensE_levels expr a ha]
      next => cases h
    | none =>
      rw [tokensStmt] at h
      split at h
      next a ha =>
        injection h with h
        subst h
        intro l
        simp [levels_append, tokensE_levels expr a ha]
      next => cases h
  | Do expr =>
    rw [tokensStmt] at h
    split at h
    next a ha =>
      injection h with h
      subst h
      intro l
      simp [levels_append, tokensE_levels expr a ha]
    next => cases h

theorem tokensRules_levels (rs : List Rule) (ts : List Tok)
    (h : tokensRules rs = some ts) : ∀ l, levels ts l = some l := by
  cases rs with
  | nil =>
    rw [tokensRules] at h
    injection h with h
    subst h
    intro l
    simp
  | cons r rest =>
    rw [tokensRules] at h
    split at h
    next a b ha hb =>
      injection h with h
      subst h
      intro l
      simp [levels_append, tokensRule_levels r a ha,
        tokensRules_levels rest b hb]
    next => cases h

theorem tokensRule_levels (r : Rule) (ts : List Tok)
    (h : tokensRule r = some ts) : ∀ l, levels ts l = some l := by
  cases r with
  | mk patn body =>
    rw [tokensRule] at h
    split at h
    next b hb =>
      injection h with h
      subst h
      intro l
      simp [levels_append, tokensE_levels body b hb]
    next => cases h

theorem tokensDeclsNwln_levels (ds : List Decl) (ts : List Tok)
    (h : tokensDeclsNwln ds = some ts) : ∀ l, levels ts l = some l := by
  cases ds with
  | nil =>
    rw [tokensDeclsNwln] at h
    injection h with h
    subst h
    intro l
    simp
  | cons d rest =>
    rw [tokensDeclsNwln] at h
    split at h
    next a b ha hb =>
      injection h with h
      subst h
      intro l
      simp [levels_append, tokensDecl_levels d a ha,
        tokensDeclsNwln_levels rest b hb]
    next => cases h

theorem tokensDecl_levels (d : Decl) (ts : List Tok)
    (h : tokensDecl d = some ts) : ∀ l, levels ts l = some l := by
  cases d with
  | Func name gens pars res body =>
    rw [tokensDecl] at h
    split at h
    next ps rs b hp hr hb =>
      injection h with h
      subst h
      intro l
      simp [levels_append, tokensE_levels body b hb]
    next => cases h
  | Data name pars vars =>
    rw [tokensDecl] at h
    split at h
    next => cases h
    next hne =>
      split at h
      next vs hv =>
        injection h with h
        subst h
        intro l
        simp [levels_append, tokensVars_levels vars vs hv]
      next => cases h
  | Typ name pars typ =>
    rw [tokensDecl] at h
    split at h
    next t ht =>
      injection h with h
      subst h
      intro l
      simp
    next => cases h
  | Extern name gens typ =>
    rw [tokensDecl] at h
    split at h
    next t ht =>
      injection h with h
      subst h
      intro l
      simp
    next => cases h

end

end Printer

namespace Printer

mutual

/-- An expression avoids the panicking shapes: no case expression with an
empty rule list, no data declaration with an empty variant list, and no
type application with an empty argument list anywhere inside it. -/
def wfE : Expr → Bool
  | .Lit _ => true
  | .Var _ => true
  | .Prim _ args => wfArgs args
  | .Fun _ body => wfE body
  | .App func args => wfE func && wfArgs args
  | .ExtCall _ args => wfArgs args
  | .Cons _ args => wfArgs args
  | .Case scrut rules => !rules.isEmpty && (wfE scrut && wfRules rules)
  | .Ifte cond trbr flbr => wfE cond && (wfE trbr && wfE flbr)
  | .Begin block => wfBlock block
  | .Letrec decls block => wfDecls decls && wfBlock block

/-- All argument expressions avoid the panicking shapes. -/
def wfArgs : List Expr → Bool
  | [] => true
  | e :: es => wfE e && wfArgs es

/-- A block avoids the panicking shapes. -/
def wfBlock : Block → Bool
  | .mk stmts retn => wfStmts stmts && wfRetn retn

/-- All statements avoid the panicking shapes. -/
def wfStmts : List Stmt → Bool
  | [] => true
  | st :: ss => wfStmt st && wfStmts ss

/-- An optional trailing return expression avoids the panicking shapes. -/
def wfRetn : Option Expr → Bool
  | none => true
  | some r => wfE r

/-- A statement avoids the panicking shapes. -/
def wfStmt : Stmt → Bool
  | .Bind _ typ expr =>
    (match typ with
     | none => true
     | some t => wfTy t) && wfE expr
  | .Do expr => wfE expr

/-- All case rules avoid the panicking shapes. -/
def wfRules : List Rule → Bool
  | [] => true
  | r :: rs => wfRule r && wfRules rs

/-- A case rule avoids the panicking shapes. -/
def wfRule : Rule → Bool
  | .mk _ body => wfE body

/-- All declarations avoid the panicking shapes. -/
def wfDecls : List Decl → Bool
  | [] => true
  | d :: ds => wfDecl d && wfDecls ds

/-- A declaration avoids the panicking shapes. -/
def wfDecl : Decl → Bool
  | .Func _ _ pars res body => wfParsTyped pars && (wfTy res && wfE body)
  | .Data _ _ vars => !vars.isEmpty && wfVars vars
  | .Typ _ _ typ => wfTy typ
  | .Extern _ _ typ => wfTy typ

end

mutual

theorem tokensE_total (e : Expr) (h : wfE e = true) : (tokensE e).isSome := by
  cases e with
  | Lit lit => rw [tokensE]; rfl
  | Var v => rw [tokensE]; rfl
  | Prim prim args =>
    rw [wfE] at h
    obtain ⟨a, ha⟩ := Option.isSome_iff_exists.1 (tokensArgs_total args h)
    rw [tokensE, ha]
    rfl
  | Fun pars body =>
    rw [wfE] at h
    obtain ⟨b, hb⟩ := Option.isSome_iff_exists.1 (tokensE_total body h)
    rw [tokensE, hb]
    rfl
  | App func args =>
    rw [wfE, Bool.and_eq_true] at h
    obtain ⟨ft, hf⟩ := Option.isSome_iff_exists.1 (tokensE_total func h.1)
    obtain ⟨a, ha⟩ := Option.isSome_iff_exists.1 (tokensArgs_total args h.2)
    rw [tokensE, hf, ha]
    rfl
  | ExtCall func args =>
    rw [wfE] at h
    obtain ⟨a, ha⟩ := Option.isSome_iff_exists.1 (tokensArgs_total args h)
    rw [tokensE, ha]
    rfl
  | Cons cons args =>
    rw [wfE] at h
    obtain ⟨a, ha⟩ := Option.isSome_iff_exists.1 (tokensArgs_total args h)
    rw [tokensE, ha]
    rfl
  | Case scrut rules =>
    rw [wfE, Bool.and_eq_true, Bool.and_eq_true] at h
    have hne : ¬(rules.isEmpty = true) := by simpa using h.1
    obtain ⟨st, hs⟩ := Option.isSome_iff_exists.1 (tokensE_total scrut h.2.1)
    obtain ⟨rt, hr⟩ := Option.isSome_iff_exists.1 (tokensRules_total rules h.2.2)
    rw [tokensE, if_neg hne, hs, hr]
    rfl
  | Ifte cond trbr flbr =>
    rw [wfE, Bool.and_eq_true, Bool.and_eq_true] at h
    obtain ⟨c, hc⟩ := Option.isSome_iff_exists.1 (tokensE_total cond h.1)
    obtain ⟨t, ht⟩ := Option.isSome_iff_exists.1 (tokensE_total trbr h.2.1)
    obtain ⟨e2, he⟩ := Option.isSome_iff_exists.1 (tokensE_total flbr h.2.2)
    rw [tokensE, hc, ht, he]
    rfl
  | Begin block =>
    rw [wfE] at h
    obtain ⟨b, hb⟩ := Option.isSome_iff_exists.1 (tokensBlock_total block h)
    rw [tokensE, hb]
    rfl
  | Letrec decls block =>
    rw [wfE, Bool.and_eq_true] at h
    obtain ⟨ds, hd⟩ := Option.isSome_iff_exists.1 (tokensDeclsNwln_total decls h.1)
    obtain ⟨b, hb⟩ := Option.isSome_iff_exists.1 (tokensBlock_total block h.2)
    rw [tokensE, hd, hb]
    rfl

theorem tokensArgs_total (es : List Expr) (h : wfArgs es = true) :
    (tokensArgs es).isSome := by
  cases es with
  | nil => rw [tokensArgs]; rfl
  | cons e rest =>
    rw [wfArgs, Bool.and_eq_true] at h
    cases rest with
    | nil =>
      rw [tokensArgs]
      exact tokensE_total e h.1
    | cons f es' =>
      obtain ⟨a, ha⟩ := Option.isSome_iff_exists.1 (tokensE_total e h.1)
      obtain ⟨b, hb⟩ := Option.isSome_iff_exists.1 (tokensArgs_total (f :: es') h.2)
      rw [tokensArgs, ha, hb]
      rfl

theorem tokensBlock_total (b : Block) (h : wfBlock b = true) :
    (tokensBlock b).isSome := by
  cases b with
  | mk stmts retn =>
    rw [wfBlock, Bool.and_eq_true] at h
    cases stmts with
    | nil =>
      cases retn with
      | none => rw [tokensBlock]; rfl
      | some r =>
        rw [tokensBlock]
        exact tokensE_total r (by simpa [wfRetn] using h.2)
    | cons st ss =>
      have hst := h.1
      rw [wfStmts, Bool.and_eq_true] at hst
      obtain ⟨a, ha⟩ := Option.isSome_iff_exists.1 (tokensStmt_total st hst.1)
      obtain ⟨b2, hb⟩ := Option.isSome_iff_exists.1 (tokensStmtsNwln_total ss hst.2)
      obtain ⟨c, hc⟩ := Option.isSome_iff_exists.1 (tokensRetnNwln_total retn h.2)
      rw [tokensBlock, ha, hb, hc]
      rfl

theorem tokensStmtsNwln_total (ss : List Stmt) (h : wfStmts ss = true) :
    (tokensStmtsNwln ss).isSome := by
  cases ss with
  | nil => rw [tokensStmtsNwln]; rfl
  | cons st rest =>
    rw [wfStmts, Bool.and_eq_true] at h
    obtain ⟨a, ha⟩ := Option.isSome_iff_exists.1 (tokensStmt_total st h.1)
    obtain ⟨b, hb⟩ := Option.isSome_iff_exists.1 (tokensStmtsNwln_total rest h.2)
    rw [tokensStmtsNwln, ha, hb]
    rfl

theorem tokensRetnNwln_total (r : Option Expr) (h : wfRetn r = true) :
    (tokensRetnNwln r).isSome := by
  cases r with
  | none => rw [tokensRetnNwln]; rfl
  | some e =>
    rw [wfRetn] at h
    obtain ⟨a, ha⟩ := Option.isSome_iff_exists.1 (tokensE_total e h)
    rw [tokensRetnNwln, ha]
    rfl

theorem tokensStmt_total (st : Stmt) (h : wfStmt st = true) :
    (tokensStmt st).isSome := by
  cases st with
  | Bind bind typ expr =>
    cases typ with
    | some t =>
      rw [wfStmt, Bool.and_eq_true] at h
      obtain ⟨ts, ht⟩ := Option.isSome_iff_exists.1 (renderTy_total t h.1)
      obtain ⟨a, ha⟩ := Option.isSome_iff_exists.1 (tokensE_total expr h.2)
      rw [tokensStmt, ht, ha]
      rfl
    | none =>
      rw [wfStmt, Bool.and_eq_true] at h
      obtain ⟨a, ha⟩ := Option.isSome_iff_exists.1 (tokensE_total expr h.2)
      rw [tokensStmt, ha]
      rfl
  | Do expr =>
    rw [wfStmt] at h
    obtain ⟨a, ha⟩ := Option.isSome_iff_exists.1 (tokensE_total expr h)
    rw [tokensStmt, ha]
    rfl

theorem tokensRules_total (rs : List Rule) (h : wfRules rs = true) :
    (tokensRules rs).isSome := by
  cases rs with
  | nil => rw [tokensRules]; rfl
  | cons r rest =>
    rw [wfRules, Bool.and_eq_true] at h
    obtain ⟨a, ha⟩ := Option.isSome_iff_exists.1 (tokensRule_total r h.1)
    obtain ⟨b, hb⟩ := Option.isSome_iff_exists.1 (tokensRules_total rest h.2)
    rw [tokensRules, ha, hb]
    rfl

theorem tokensRule_total (r : Rule) (h : wfRule r = true) :
    (tokensRule r).isSome := by
  cases r with
  | mk patn body =>
    rw [wfRule] at h
    obtain ⟨b, hb⟩ := Option.isSome_iff_exists.1 (tokensE_total body h)
    rw [tokensRule, hb]
    rfl

theorem tokensDeclsNwln_total (ds : List Decl) (h : wfDecls ds = true) :
    (tokensDeclsNwln ds).isSome := by
  cases ds with
  | nil => rw [tokensDeclsNwln]; rfl
  | cons d rest =>
    rw [wfDecls, Bool.and_eq_true] at h
    obtain ⟨a, ha⟩ := Option.isSome_iff_exists.1 (tokensDecl_total d h.1)
    obtain ⟨b, hb⟩ := Option.isSome_iff_exists.1 (tokensDeclsNwln_total rest h.2)
    rw [tokensDeclsNwln, ha, hb]
    rfl

theorem tokensDecl_total (d : Decl) (h : wfDecl d = true) :
    (tokensDecl d).isSome := by
  cases d with
  | Func name gens pars res body =>
    rw [wfDecl, Bool.and_eq_true, Bool.and_eq_true] at h
    obtain ⟨ps, hp⟩ := Option.isSome_iff_exists.1 (renderParsTyped_total pars h.1)
    obtain ⟨rs, hr⟩ := Option.isSome_iff_exists.1 (renderRes_total res h.2.1)
    obtain ⟨b, hb⟩ := Option.isSome_iff_exists.1 (tokensE_total body h.2.2)
    rw [tokensDecl, hp, hr, hb]
    rfl
  | Data name pars vars =>
    rw [wfDecl, Bool.and_eq_true] at h
    have hne : ¬(vars.isEmpty = true) := by simpa using h.1
    obtain ⟨vs, hv⟩ := Option.isSome_iff_exists.1 (tokensVars_total vars h.2)
    rw [tokensDecl, if_neg hne, hv]
    rfl
  | Typ name pars typ =>
    rw [wfDecl] at h
    obtain ⟨t, ht⟩ := Option.isSome_iff_exists.1 (renderTy_total typ h)
    rw [tokensDecl, ht]
    rfl
  | Extern name gens typ =>
    rw [wfDecl] at h
    obtain ⟨t, ht⟩ := Option.isSome_iff_exists.1 (renderTy_total typ h)
    rw [tokensDecl, ht]
    rfl

end

end Printer

/-! ## Claims C9 and C10 -/

/-- Rendering an expression through the printer from the initial
thread-local indentation level 0: emit its tokens (panicking shapes give
`none`), then lay them out. -/
def renderE (e : Printer.Expr) : Option (String × Nat) :=
  (Printer.tokensE e).bind fun ts => layout ts 0

/-- Rendering a declaration from the initial indentation level 0. -/
def renderD (d : Printer.Decl) : Option (String × Nat) :=
  (Printer.tokensDecl d).bind fun ts => layout ts 0

/-- C9: the printer's rendering is partial exactly at the asserted-empty
shapes — a case expression with an empty rule list, a data declaration with
an empty variant list, and a type application with an empty argument list
all panic (`none`), and a `DEDT` token at indentation level zero underflows
the `usize` counter (`none`) — while every expression and declaration
avoiding those shapes renders successfully. -/
theorem C9_partiality_at_empty_shapes :
    (∀ scrut : Printer.Expr, Printer.tokensE (Printer.Expr.Case scrut []) = none) ∧
    (∀ (name : Ident) (pars : List Ident),
      Printer.tokensDecl (Printer.Decl.Data name pars []) = none) ∧
    (∀ (c : Ident) (sp : Span), renderTy (Ty.App c [] sp) = none) ∧
    (layoutStep 0 Tok.dedt = none) ∧
    (∀ e : Printer.Expr, Printer.wfE e = true → ∃ out, renderE e = some out) ∧
    (∀ d : Printer.Decl, Printer.wfDecl d = true → ∃ out, renderD d = some out) := by
  refine ⟨fun scrut => ?_, fun name pars => ?_, fun c sp => ?_, rfl,
    fun e he => ?_, fun d hd => ?_⟩
  · rw [Printer.tokensE]
    rfl
  · rw [Printer.tokensDecl]
    rfl
  · rw [renderTy]
    rfl
  · obtain ⟨ts, hts⟩ := Option.isSome_iff_exists.1 (Printer.tokensE_total e he)
    obtain ⟨str1, hs⟩ := levels_some_layout (Printer.tokensE_levels e ts hts 0)
    exact ⟨(str1, 0), by rw [renderE, hts]; simpa using hs⟩
  · obtain ⟨ts, hts⟩ := Option.isSome_iff_exists.1 (Printer.tokensDecl_total d hd)
    obtain ⟨str1, hs⟩ := levels_some_layout (Printer.tokensDecl_levels d ts hts 0)
    exact ⟨(str1, 0), by rw [renderD, hts]; simpa using hs⟩

/-- Witness for C9: the wildcard case `case x of | _ => ()` avoids the
panicking shapes and renders successfully. -/
theorem C9_partiality_at_empty_shapes_witness :
    Printer.wfE (Printer.Expr.Case (Printer.Expr.Var "x")
      [Printer.Rule.mk (Pattern.Wild ⟨0, 0⟩) (Printer.Expr.Lit LitVal.Unit)]) = true ∧
    ∃ out, renderE (Printer.Expr.Case (Printer.Expr.Var "x")
      [Printer.Rule.mk (Pattern.Wild ⟨0, 0⟩) (Printer.Expr.Lit LitVal.Unit)]) = some out :=
  ⟨rfl, C9_partiality_at_empty_shapes.2.2.2.2.1
    (Printer.Expr.Case (Printer.Expr.Var "x")
      [Printer.Rule.mk (Pattern.Wild ⟨0, 0⟩) (Printer.Expr.Lit LitVal.Unit)]) rfl⟩

/-- C10: every `Display` implementation in the printer emits `INDT` and
`DEDT` in matched pairs, so a successful render of any surface expression,
surface declaration, IR chain or IR declaration leaves the thread-local
indentation level exactly where it started; and one `NWLN` renders a
newline followed by exactly two spaces per current indentation level. -/
theorem C10_indentation_restored :
    (∀ (e : Printer.Expr) (ts : List Tok) (l : Nat),
      Printer.tokensE e = some ts → levels ts l = some l) ∧
    (∀ (d : Printer.Decl) (ts : List Tok) (l : Nat),
      Printer.tokensDecl d = some ts → levels ts l = some l) ∧
    (∀ (e : MExpr) (l : Nat), levels (tokensM e) l = some l) ∧
    (∀ (d : MDecl) (l : Nat), levels (tokensMDecl d) l = some l) ∧
    (∀ l : Nat, layoutStep l Tok.nwln =
      some (String.mk ('\n' :: List.replicate (2 * l) ' '), l)) :=
  ⟨fun e ts l h => Printer.tokensE_levels e ts h l,
   fun d ts l h => Printer.tokensDecl_levels d ts h l,
   levels_tokensM, levels_tokensMDecl, fun _ => rfl⟩

/-- Witness for C10: a concrete lambda expression whose body is indented;
its token stream exists and leaves level 3 at level 3. -/
theorem C10_indentation_restored_witness :
    Printer.tokensE (Printer.Expr.Fun ["x"] (Printer.Expr.Var "x")) =
      some [Tok.str "fn (x) \x7b", Tok.indt, Tok.nwln, Tok.str "x",
        Tok.dedt, Tok.nwln, Tok.str "\x7d"] ∧
    levels [Tok.str "fn (x) \x7b", Tok.indt, Tok.nwln, Tok.str "x",
      Tok.dedt, Tok.nwln, Tok.str "\x7d"] 3 = some 3 :=
  ⟨rfl, C10_indentation_restored.1 (Printer.Expr.Fun ["x"] (Printer.Expr.Var "x"))
    [Tok.str "fn (x) \x7b", Tok.indt, Tok.nwln, Tok.str "x",
      Tok.dedt, Tok.nwln, Tok.str "\x7d"] 3 rfl⟩

/-- Witness for C7: the literal-kind injectivity conjunct applied at a
concrete literal. -/
theorem C7_atom_is_name_or_literal_witness :
    litToAtom (LitVal.Int 3) = litToAtom (LitVal.Int 3) ∧
    LitVal.Int 3 = LitVal.Int 3 :=
  ⟨rfl, C7_atom_is_name_or_literal.2.2.1 (LitVal.Int 3) (LitVal.Int 3) rfl⟩

end Norem
